import Mathlib

/-!
Verification of the tradestack order-book matching engine.

This file gives a shallow embedding, in Lean 4, of the core of the
tradestack repository (a C++ limit-order-book matching engine) and proves
properties of that embedding.

Conventions of the embedding:
* C++ `uint64_t` prices and quantities are modelled as `Nat` (no overflow
  occurs in the modelled range); the `double` market-statistics fields of
  `Instrument` only ever receive values cast from integer prices and are
  combined with `min` / `max` / assignment, which are exact on that range,
  so they are modelled as `Nat` as well.
* Heap objects mutated through pointers are modelled by value; a pointer
  to a price level inside a side book is represented by the level's price
  (prices are unique per side), and `nullptr` by `none`.
* The AVL ordered price index together with the price -> level hash map
  and the cached min/max pointers of `SideTree` (src/include/side_tree.hpp)
  are represented by their joint in-order view: a list of price levels in
  strictly ascending price order, with the minimum at the head and the
  maximum at the end.  The AVL tree itself is embedded separately, at full
  fidelity, further below.
-/

namespace Tradestack

/-- Side of an order (src/include/order.hpp, `enum class Side`). -/
inductive Side where
  | Buy
  | Sell
  deriving DecidableEq, Repr

/-- Order type (src/include/order.hpp, `enum class OrderType`). -/
inductive OrderType where
  | Market
  | Limit
  deriving DecidableEq, Repr

/-- An order (src/include/order.hpp `struct Order`).  The fields are the
ones read or written by the book and the matching engine: identity
(`id`, `clientOrderId`), the owning client (`clientId`, read by the
matching loop in src/unnamed/part_001 for trade notifications), the limit
price, and the mutable execution state `remainingQuantity` /
`filledQuantity`.  Arrival timestamps are not read by any embedded code
path and are omitted. -/
structure Order where
  id : String
  clientOrderId : String
  clientId : String
  price : Nat
  remainingQuantity : Nat
  filledQuantity : Nat
  side : Side
  type : OrderType
  deriving DecidableEq, Repr

/-- A price level (src/include/price_level_node.hpp `struct
PriceLevelNode`): a price and the FIFO list of resting orders at that
price (field name `level` as in the source).  The AVL child pointers and
height live in the separately embedded tree; here a level is just its
payload. -/
structure PriceLevelNode where
  price : Nat
  level : List Order
  deriving DecidableEq, Repr

/-- One side of the book (src/include/side_tree.hpp `class SideTree`).
`levels` is the in-order view of the ordered price index together with
the price -> level map: strictly ascending prices, lowest first.
`m_orderCnt` is the stored count of resting orders, and `m_side` the side
tag, as in the source. -/
structure SideTree where
  levels : List PriceLevelNode
  m_orderCnt : Nat
  m_side : Side
  deriving DecidableEq, Repr

/-- Look up the price level at price `px` (the `m_levels.find(px)` /
`m_avl.find` pair of src/include/side_tree.hpp). -/
def findLevel (ls : List PriceLevelNode) (px : Nat) : Option PriceLevelNode :=
  ls.find? (fun l => l.price == px)

/-- Insert a fresh level into the ordered view, keeping prices ascending
(the `m_avl.insert(px)` plus `m_levels[px]` step of `SideTree::insert`). -/
def insertLevelSorted (ls : List PriceLevelNode) (nd : PriceLevelNode) :
    List PriceLevelNode :=
  match ls with
  | [] => [nd]
  | l :: rest =>
    if nd.price < l.price then nd :: l :: rest else l :: insertLevelSorted rest nd

/-- `SideTree::insert` (src/include/side_tree.hpp lines 108-122): if no
level exists at `order.price` create one, then append the order at the
back of that level's list and increment the order counter. -/
def SideTree.insert (b : SideTree) (o : Order) : SideTree :=
  if (findLevel b.levels o.price).isSome then
    { b with
      levels := b.levels.map fun l =>
        if l.price == o.price then { l with level := l.level ++ [o] } else l,
      m_orderCnt := b.m_orderCnt + 1 }
  else
    { b with
      levels := insertLevelSorted b.levels { price := o.price, level := [o] },
      m_orderCnt := b.m_orderCnt + 1 }

/-- The matching predicate of `SideTree::remove` (src/include/side_tree.hpp
lines 141-146): match by `id` alone when the argument's `clientOrderId`
is empty, otherwise by both. -/
def orderMatches (target o : Order) : Bool :=
  if target.clientOrderId = "" then o.id == target.id
  else o.id == target.id && o.clientOrderId == target.clientOrderId

/-- Erase the first element matching `target` from a level's order list
(the erase loop of `SideTree::remove`, lines 148-156).  Returns the new
list and whether an element was erased (`erased_one`). -/
def eraseFirstMatch (target : Order) : List Order → List Order × Bool
  | [] => ([], false)
  | o :: os =>
    if orderMatches target o then (os, true)
    else
      let r := eraseFirstMatch target os
      (o :: r.1, r.2)

/-- `SideTree::remove` (src/include/side_tree.hpp lines 133-182).  The
returned `node_ref` is modelled as the price of the returned level
(`none` for `nullptr`).  If no level exists at `order.price`, return
`nullptr` and change nothing.  If a matching order is erased and the
level becomes empty, erase the level from the index and the map (the
cached extrema are the ends of the ordered view, so `recomputeRange` is
implicit) and return `nullptr`; otherwise return the level.  If nothing
was erased, return the level unchanged. -/
def SideTree.remove (b : SideTree) (o : Order) : Option Nat × SideTree :=
  match findLevel b.levels o.price with
  | none => (none, b)
  | some nd =>
    let r := eraseFirstMatch o nd.level
    if !r.2 then (some nd.price, b)
    else if r.1.isEmpty then
      (none,
       { b with
         levels := b.levels.filter (fun l => l.price != o.price),
         m_orderCnt := b.m_orderCnt - 1 })
    else
      (some nd.price,
       { b with
         levels := b.levels.map fun l =>
           if l.price == o.price then { l with level := r.1 } else l,
         m_orderCnt := b.m_orderCnt - 1 })

/-- The lowest active price level (`m_low`, the in-order minimum). -/
def SideTree.low (b : SideTree) : Option PriceLevelNode := b.levels.head?

/-- The highest active price level (`m_high`, the in-order maximum). -/
def SideTree.high (b : SideTree) : Option PriceLevelNode := b.levels.getLast?

/-- Total remaining quantity resting in a side book. -/
def SideTree.totalRemaining (b : SideTree) : Nat :=
  (b.levels.map (fun nd => (nd.level.map Order.remainingQuantity).sum)).sum

/-- Total number of orders resting in a side book (the sum the stored
counter is meant to track). -/
def SideTree.totalOrders (b : SideTree) : Nat :=
  (b.levels.map (fun nd => nd.level.length)).sum

/-- An instrument (src/include/instrument.hpp `class Instrument`): two
side books plus the market-statistics scalars.  The C++ field `open` is
rendered `open_` (`open` is reserved in Lean).  `volume_today` and
`vwap_numerator` are declared in the header with accessors but, as the
theorems below establish, never written by the embedded code. -/
structure Instrument where
  symbol : String
  buy_side : SideTree
  sell_side : SideTree
  last_trade_price : Nat
  last_trade_size : Nat
  volume_today : Nat
  vwap_numerator : Nat
  open_ : Nat
  high : Nat
  low : Nat
  close : Nat
  deriving DecidableEq, Repr

/-- `Instrument::updatePrices` (src/unnamed/part_001 lines 65-85): set the
last trade price, fold it into high/low with max/min, set `open` only if
it is still zero, and set `close`.  The L1 group notification the source
emits afterwards is output only and carries no state. -/
def Instrument.updatePrices (i : Instrument) (fillPrice : Nat) : Instrument :=
  { i with
    last_trade_price := fillPrice,
    high := max i.high fillPrice,
    low := min i.low fillPrice,
    open_ := if i.open_ = 0 then fillPrice else i.open_,
    close := fillPrice }

/-- The per-fill market-statistics update of the matching loop
(src/unnamed/part_001 lines 53-54): `updatePrices(fillPrice)` followed by
`last_trade_size = fillQty`. -/
def Instrument.fillStatsUpdate (i : Instrument) (fillPrice fillQty : Nat) :
    Instrument :=
  { i.updatePrices fillPrice with last_trade_size := fillQty }

/-- The paired execution-state updates of one fill on one order
(src/unnamed/part_001 lines 40-44): add the fill quantity to the filled
counter and subtract it from the remaining counter. -/
def fillUpd (o : Order) (q : Nat) : Order :=
  { o with
    filledQuantity := o.filledQuantity + q,
    remainingQuantity := o.remainingQuantity - q }

/-- One executed fill, as reported by the `EXEC` notifications of the
matching loop. -/
structure Fill where
  price : Nat
  qty : Nat
  buyerId : String
  sellerId : String
  deriving DecidableEq, Repr

/-- Replace the front order of a level (the in-place mutation of the
order the level's `front()` pointer designates). -/
def setHeadOrder (nd : PriceLevelNode) (o : Order) : PriceLevelNode :=
  { nd with level := o :: nd.level.tail }

/-- Apply `f` to the last element of a list, if any. -/
def mapLast (f : α → α) : List α → List α
  | [] => []
  | [x] => [f x]
  | x :: y :: xs => x :: mapLast f (y :: xs)

/-- Apply `f` to the first element of a list, if any. -/
def mapHead (f : α → α) : List α → List α
  | [] => []
  | x :: xs => f x :: xs

/-- One iteration of the matching loop `Instrument::execute_limit_if_match`
(src/unnamed/part_001 lines 15-62).  Returns `none` when the loop would
`break`: one of the sides has no best level, the book is uncrossed
(best buy price strictly below best sell price), or a best level has no
front order.  Otherwise: fill quantity is the minimum of the two front
orders' remaining quantities, fill price is the sell level's price, both
front orders' filled/remaining counters are updated in place, fully
filled orders are removed from their side, and the statistics update of
lines 53-54 runs.  The `EXEC` notification is returned as a `Fill`. -/
def Instrument.matchStep (i : Instrument) : Option (Instrument × Fill) :=
  match i.buy_side.high, i.sell_side.low with
  | some buyLevel, some sellLevel =>
    if buyLevel.price < sellLevel.price then none
    else
      match buyLevel.level.head?, sellLevel.level.head? with
      | some bestBuy, some bestSell =>
        let fillQty := min bestBuy.remainingQuantity bestSell.remainingQuantity
        let fillPrice := sellLevel.price
        let bestBuy' := fillUpd bestBuy fillQty
        let bestSell' := fillUpd bestSell fillQty
        let buySide1 := { i.buy_side with
          levels := mapLast (fun nd => setHeadOrder nd bestBuy') i.buy_side.levels }
        let sellSide1 := { i.sell_side with
          levels := mapHead (fun nd => setHeadOrder nd bestSell') i.sell_side.levels }
        let buySide2 :=
          if bestBuy'.remainingQuantity = 0 then (buySide1.remove bestBuy').2 else buySide1
        let sellSide2 :=
          if bestSell'.remainingQuantity = 0 then (sellSide1.remove bestSell').2 else sellSide1
        let i1 := { i with buy_side := buySide2, sell_side := sellSide2 }
        some (i1.fillStatsUpdate fillPrice fillQty,
          { price := fillPrice, qty := fillQty,
            buyerId := bestBuy.clientId, sellerId := bestSell.clientId })
      | _, _ => none
  | _, _ => none

/-- The matching loop, driven by explicit fuel.  The C++ `while (true)`
loop terminates because every iteration shrinks the book (proved below);
`loopMeasure` fuel is always sufficient. -/
def Instrument.matchLoop : Nat → Instrument → Instrument × List Fill
  | 0, i => (i, [])
  | fuel + 1, i =>
    match i.matchStep with
    | none => (i, [])
    | some (i', f) =>
      let r := Instrument.matchLoop fuel i'
      (r.1, f :: r.2)

/-- Termination measure for the matching loop: total resting remaining
quantity plus total resting order count, over both sides. -/
def Instrument.loopMeasure (i : Instrument) : Nat :=
  (i.buy_side.totalRemaining + i.sell_side.totalRemaining) +
    (i.buy_side.totalOrders + i.sell_side.totalOrders)

/-- `Instrument::execute_limit_if_match` (src/unnamed/part_001 lines
14-63): run the matching loop to completion. -/
def Instrument.execute_limit_if_match (i : Instrument) : Instrument × List Fill :=
  i.matchLoop i.loopMeasure

/-- `Instrument::placeOrder` (src/unnamed/part_001 lines 4-12): insert the
order into its own side, then run the matching loop. -/
def Instrument.placeOrder (i : Instrument) (o : Order) : Instrument × List Fill :=
  let i1 :=
    if o.side = Side.Buy then { i with buy_side := i.buy_side.insert o }
    else { i with sell_side := i.sell_side.insert o }
  i1.execute_limit_if_match

/-- Well-formedness of a side book (the representation invariant the
source maintains, spec I4 and the PriceLevel invariant of section 3):
level prices strictly ascending — so each price occurs once and the
cached extrema are the ends — no level is empty, and every resting order
carries its level's price. -/
def SideTree.WF (b : SideTree) : Prop :=
  b.levels.Pairwise (fun a c => a.price < c.price) ∧
    (∀ nd ∈ b.levels, nd.level ≠ []) ∧
    ∀ nd ∈ b.levels, ∀ o ∈ nd.level, o.price = nd.price

/-- Well-formedness of an instrument: both side books well formed. -/
def Instrument.WF (i : Instrument) : Prop := i.buy_side.WF ∧ i.sell_side.WF

/-- Every resting order has remaining quantity at least 1 (spec I3). -/
def SideTree.allRemPos (b : SideTree) : Prop :=
  ∀ nd ∈ b.levels, ∀ o ∈ nd.level, 1 ≤ o.remainingQuantity

/-- The books are uncrossed (spec I2): the buy side is empty, or the sell
side is empty, or the highest buy level price is strictly below the
lowest sell level price. -/
def Instrument.uncrossed (i : Instrument) : Prop :=
  i.buy_side.levels = [] ∨ i.sell_side.levels = [] ∨
    ∃ bl sl, i.buy_side.high = some bl ∧ i.sell_side.low = some sl ∧
      bl.price < sl.price

end Tradestack

namespace AVL

/-- A node of the ordered price index (src/include/avl_tree.hpp
`AVLTree<Key>::Node`, with `Key` the `uint64_t` price): key, the stored
subtree height, and the two children.  The non-owning parent pointer and
the cached min/max pointers of the C++ class are navigation aids that do
not influence the tree shape and are not represented. -/
inductive ATree where
  | nil : ATree
  | node : Nat → Nat → ATree → ATree → ATree
  deriving DecidableEq, Repr

/-- `AVLTree::height` (src/include/avl_tree.hpp line 235): the stored
height, 0 for null. -/
def hval : ATree → Nat
  | .nil => 0
  | .node _ h _ _ => h

/-- `AVLTree::balance_factor` (line 243): left stored height minus right
stored height. -/
def bf : ATree → Int
  | .nil => 0
  | .node _ _ l r => (hval l : Int) - (hval r : Int)

/-- `AVLTree::rotate_left` (lines 263-280).  The rotated-in child's
height is recomputed first (`update_height(p->left)`), then the new
root's.  Only called by `rebalance` on nodes with a right child; other
shapes are returned unchanged. -/
def rotate_left : ATree → ATree
  | .node k _ l (.node yk _ yl yr) =>
    let p' := ATree.node k (1 + max (hval l) (hval yl)) l yl
    ATree.node yk (1 + max (hval p') (hval yr)) p' yr
  | t => t

/-- `AVLTree::rotate_right` (lines 298-315), mirror image of
`rotate_left`. -/
def rotate_right : ATree → ATree
  | .node k _ (.node yk _ yl yr) r =>
    let p' := ATree.node k (1 + max (hval yr) (hval r)) yr r
    ATree.node yk (1 + max (hval yl) (hval p')) yl p'
  | t => t

/-- `AVLTree::rebalance` (lines 329-344): refresh the node's stored
height, then resolve a balance factor outside [-1, 1] with the standard
four rotation cases.  The stored height `1 + max ...` written before a
rotation is the value `update_height(p.get())` stores; the rotation
overwrites it from the children's stored heights, exactly as in the
source. -/
def rebalance : ATree → ATree
  | .nil => .nil
  | .node k _ l r =>
    let h := 1 + max (hval l) (hval r)
    let b : Int := (hval l : Int) - (hval r : Int)
    if 1 < b then
      rotate_right (.node k h (if bf l < 0 then rotate_left l else l) r)
    else if b < -1 then
      rotate_left (.node k h l (if 0 < bf r then rotate_right r else r))
    else
      .node k h l r

/-- `AVLTree::insert_impl` (lines 356-381): standard recursive insertion
with `std::less` comparisons, rebalancing every node on the search path;
an equal key is returned with `created = false` and no mutation. -/
def insertT : ATree → Nat → ATree × Bool
  | .nil, k => (.node k 1 .nil .nil, true)
  | .node key h l r, k =>
    if k < key then
      let res := insertT l k
      (rebalance (.node key h res.1 r), res.2)
    else if key < k then
      let res := insertT r k
      (rebalance (.node key h l res.1), res.2)
    else (.node key h l r, false)

/-- The leftmost key of a tree (the `while (s->left) s = s->left.get()`
walk in `AVLTree::erase_node`); 0 for the empty tree, on which the
source never performs the walk. -/
def minKey : ATree → Nat
  | .nil => 0
  | .node k _ .nil _ => k
  | .node _ _ (.node k' h' l' r') _ => minKey (.node k' h' l' r')

mutual

/-- `AVLTree::erase_impl` (lines 392-412): search for the key; on the
path back up rebalance only if the recursive erase reported success; on
an equal key defer to `erase_node`. -/
def eraseT : ATree → Nat → ATree × Bool
  | .nil, _ => (.nil, false)
  | .node key h l r, k =>
    if k < key then
      let res := eraseT l k
      if res.2 then (rebalance (.node key h res.1 r), true)
      else (.node key h res.1 r, false)
    else if key < k then
      let res := eraseT r k
      if res.2 then (rebalance (.node key h l res.1), true)
      else (.node key h l res.1, false)
    else (erase_node (.node key h l r), true)
termination_by t _ => (sizeOf t, 1)

/-- `AVLTree::erase_node` (lines 427-460): a node with at most one child
is replaced by that child; a node with two children takes its in-order
successor's key (the leftmost key of the right subtree) and that key is
erased from the right subtree; finally the replacement is rebalanced
(`if (p) rebalance(p)`; `rebalance` maps the empty tree to itself). -/
def erase_node : ATree → ATree
  | .nil => .nil
  | .node _key h l r =>
    match l, r with
    | .nil, _ => rebalance r
    | .node lk lh ll lr, .nil => rebalance (.node lk lh ll lr)
    | .node lk lh ll lr, .node rk rh rl rr =>
      let s := minKey (.node rk rh rl rr)
      rebalance (.node s h (.node lk lh ll lr) (eraseT (.node rk rh rl rr) s).1)
termination_by t => (sizeOf t, 0)

end

/-- Structural key membership in the tree. -/
def memT : ATree → Nat → Bool
  | .nil, _ => false
  | .node key _ l r, k => k == key || memT l k || memT r k

/-- The representation invariant of the AVL tree: every stored height is
one more than the maximum of the children's stored heights, and every
balance factor lies in [-1, 1]. -/
def valid : ATree → Bool
  | .nil => true
  | .node _ h l r =>
    valid l && valid r && decide (h = 1 + max (hval l) (hval r)) &&
      decide (hval l ≤ hval r + 1) && decide (hval r ≤ hval l + 1)

/-- Structural (true) height of a tree, independent of the stored
heights. -/
def realHeight : ATree → Nat
  | .nil => 0
  | .node _ _ l r => 1 + max (realHeight l) (realHeight r)

/-- Height balance in terms of true subtree heights: every node's balance
factor (left height minus right height) lies in [-1, 1]. -/
def balancedReal : ATree → Prop
  | .nil => True
  | .node _ _ l r =>
    balancedReal l ∧ balancedReal r ∧
      realHeight l ≤ realHeight r + 1 ∧ realHeight r ≤ realHeight l + 1

/-- A small valid AVL tree holding keys 3 and 5, used as concrete input
for the balance theorem. -/
def t0 : ATree := .node 5 2 (.node 3 1 .nil .nil) .nil

end AVL

namespace Net

/-- A connection's server-side state (src/include/network.hpp `struct
Session`): transport handle, output buffer, authentication flag and
client id.  The input buffer and the idle-timeout clock fields are not
read by the embedded handlers and are omitted. -/
structure Session where
  fd : Int
  is_authenticated : Bool
  client_id : String
  outbuf : String
  deriving DecidableEq, Repr

/-- `Session::close_fd` (src/include/network.hpp lines 32-37): close the
transport and mark the handle -1. -/
def Session.close_fd (s : Session) : Session :=
  if 0 ≤ s.fd then { s with fd := -1 } else s

/-- First-match lookup in an association list (the `find` of the C++
`std::map`s; keys are unique in a map, which the well-formedness
predicate below records). -/
def alookup [BEq K] (m : List (K × V)) (k : K) : Option V :=
  (m.find? (fun p => p.1 == k)).map (fun p => p.2)

/-- Key removal in an association list (`std::map::erase`). -/
def aerase [BEq K] (m : List (K × V)) (k : K) : List (K × V) :=
  m.filter (fun p => !(p.1 == k))

/-- Insert-or-assign in an association list (`m[k] = v`). -/
def aset [BEq K] (m : List (K × V)) (k : K) (v : V) : List (K × V) :=
  if (m.find? (fun p => p.1 == k)).isSome then
    m.map (fun p => if p.1 == k then (p.1, v) else p)
  else m ++ [(k, v)]

/-- The server's session tables (src/include/network.hpp `class Server`).
Sessions are shared heap objects (`std::shared_ptr<Session>`); they are
modelled in an object `store` addressed by identity, with
`temp_sessions_` (every live connection, keyed by transport handle) and
`sessions_` (authenticated sessions, keyed by client id) holding those
identities.  The epoll registration is transport bookkeeping carried by
the handles themselves. -/
structure ServerState where
  store : List (Nat × Session)
  temp_sessions_ : List (Int × Nat)
  sessions_ : List (String × Nat)
  deriving DecidableEq, Repr

/-- `Server::enqueue_reply` (src/unnamed/part_003 lines 347-350): append
the reply to the session's output buffer (the epoll interest toggle is
transport bookkeeping). -/
def enqueue (st : ServerState) (sid : Nat) (reply : String) : ServerState :=
  match alookup st.store sid with
  | none => st
  | some s => { st with store := aset st.store sid { s with outbuf := s.outbuf ++ reply } }

/-- `Server::remove_session` (src/unnamed/part_003 lines 262-286): look
the session up by transport handle; if absent do nothing.  Otherwise,
if it is authenticated under a non-empty client id and the authenticated
table maps that id to this same session, drop that entry; then close the
transport and drop the session from the pre-auth table. -/
def remove_session (st : ServerState) (fd : Int) : ServerState :=
  match alookup st.temp_sessions_ fd with
  | none => st
  | some sid =>
    match alookup st.store sid with
    | none => st
    | some s =>
      let sessions1 :=
        if s.is_authenticated && s.client_id != "" then
          match alookup st.sessions_ s.client_id with
          | some sid2 => if sid2 = sid then aerase st.sessions_ s.client_id else st.sessions_
          | none => st.sessions_
        else st.sessions_
      { store := aset st.store sid s.close_fd,
        temp_sessions_ := aerase st.temp_sessions_ fd,
        sessions_ := sessions1 }

/-- Modelled from the spec: `iequals`, the case-insensitive string
comparison of the string utilities.  It is called by the AUTH handler in
src/src/processors.cpp but its definition is not among the sources; the
spec describes the passkey check as validation against a shared secret
with case-insensitive comparison (section 9, AUTH token folding). -/
def iequals (a b : String) : Bool := a.data.map Char.toLower == b.data.map Char.toLower

/-- The shared AUTH passkey (`EASTER_EGG` in src/src/processors.cpp). -/
def EASTER_EGG : String := "pawy"

/-- The registration tail of the AUTH handler (src/src/processors.cpp
lines 219-230), for session `sid` (object `s`) taking client id `cid`:
if another session is registered under `cid` on a different transport,
evict it via `remove_session`; then mark the session authenticated with
the new id, register it in the authenticated table, and reply
`OK AUTH`. -/
def authRegister (st : ServerState) (sid : Nat) (s : Session) (cid : String) : ServerState :=
  let st2 :=
    match alookup st.sessions_ cid with
    | some psid =>
      match alookup st.store psid with
      | some prev => if prev.fd != s.fd then remove_session st prev.fd else st
      | none => st
    | none => st
  match alookup st2.store sid with
  | none => st2
  | some s2 =>
    let st3 := { st2 with
      store := aset st2.store sid { s2 with is_authenticated := true, client_id := cid } }
    let st4 := { st3 with sessions_ := aset st3.sessions_ cid sid }
    enqueue st4 sid "OK AUTH\n"

/-- The AUTH command handler (src/src/processors.cpp lines 190-231),
acting for the session `sid` that received the command line `parts`.
After validating arity and passkey: an already-authenticated session
re-authenticating under its own id gets `OK AUTH` and nothing else; one
switching ids is first dropped from the authenticated table under the
old id; then `authRegister` runs the supersede-and-register tail. -/
def authProcessor (st : ServerState) (sid : Nat) (parts : List String) : ServerState :=
  match alookup st.store sid with
  | none => st
  | some s =>
    if parts.length < 3 then
      enqueue st sid "ERR BAD_COMMAND\nUSAGE: AUTH <PASSKEY> <CLIENTID>\n"
    else
      let passkey := parts.getD 1 ""
      let cid := parts.getD 2 ""
      if !(iequals passkey EASTER_EGG) then enqueue st sid "ERR BAD_PASSKEY\n"
      else if s.is_authenticated && s.client_id == cid then enqueue st sid "OK AUTH\n"
      else
        let st1 :=
          if s.is_authenticated && s.client_id != "" then
            { st with sessions_ := aerase st.sessions_ s.client_id }
          else st
        authRegister st1 sid s cid

/-- Well-formedness of the server state (the invariants the reactor
maintains, spec I5 and section 4.5): all three tables have unique keys;
every pre-auth entry points to a stored session holding that same open
transport handle, and if that session is authenticated under a non-empty
client id the authenticated table maps that id back to it; every
authenticated-table entry points to a stored session that is
authenticated under exactly that (non-empty) id and is still present in
the pre-auth table under its handle. -/
def ServerState.WF (st : ServerState) : Prop :=
  st.store.Pairwise (fun a c => a.1 ≠ c.1) ∧
  st.temp_sessions_.Pairwise (fun a c => a.1 ≠ c.1) ∧
  st.sessions_.Pairwise (fun a c => a.1 ≠ c.1) ∧
  (∀ p ∈ st.temp_sessions_, ∃ s, alookup st.store p.2 = some s ∧ s.fd = p.1 ∧ 0 ≤ p.1 ∧
    (s.is_authenticated = true → s.client_id ≠ "" →
      alookup st.sessions_ s.client_id = some p.2)) ∧
  (∀ q ∈ st.sessions_, ∃ s, alookup st.store q.2 = some s ∧ s.is_authenticated = true ∧
    s.client_id = q.1 ∧ q.1 ≠ "" ∧ alookup st.temp_sessions_ s.fd = some q.2)

/-- The notifier's subscription table (src/include/notifier.hpp:
`groups`, a map from group name to the ordered list of subscribed client
ids). -/
abbrev Groups := List (String × List String)

/-- The default-construct-on-absent behaviour of `groups[group]`
(`std::unordered_map::operator[]`): ensure an entry exists. -/
def bracketDefault (g : Groups) (group : String) : Groups :=
  if (List.find? (fun p => p.1 == group) g).isSome then g else g ++ [(group, [])]

/-- Read a group's subscriber list after `bracketDefault`. -/
def groupList (g : Groups) (group : String) : List String :=
  match List.find? (fun p => p.1 == group) g with
  | some p => p.2
  | none => []

/-- `Notifier::subscribe` (src/src/notifier.cpp lines 3-5):
`groups[group].push_back(clientId)` — create the group if absent and
append the client id at the back. -/
def subscribe (g : Groups) (group clientId : String) : Groups :=
  let g1 := bracketDefault g group
  g1.map (fun p => if p.1 == group then (p.1, p.2 ++ [clientId]) else p)

/-- Erase the first occurrence of `c` from a list (the
`find(g.begin(), g.end(), clientId)` + `g.erase(it)` pair). -/
def eraseFirstOcc (l : List String) (c : String) : List String :=
  match l with
  | [] => []
  | x :: xs => if x == c then xs else x :: eraseFirstOcc xs c

/-- `Notifier::unsubscribe` (src/src/notifier.cpp lines 7-15).  The
source binds `auto g = groups[group]` — a copy of the subscriber vector,
not a reference — finds the client id in the copy and erases it from the
copy.  The only effect on the table is `operator[]`'s
default-insertion of an absent group; the group's stored list is never
modified.  The dead local computation is kept to mirror the source. -/
def unsubscribe (g : Groups) (group clientId : String) : Groups :=
  let g1 := bracketDefault g group
  let gcopy := groupList g1 group
  let _ := eraseFirstOcc gcopy clientId
  g1

/-- The SUB command handler (src/src/processors.cpp lines 266-290),
acting on session `s` with command tokens `parts` and the dispatcher's
`clientId` argument (the session's client id).  Unauthenticated sessions
get `UNAUTHORIZED`; a missing or empty group token gets the usage error;
otherwise the client id is subscribed to the group and the reply line is
enqueued. -/
def subProcessor (s : Session) (parts : List String) (clientId : String) (g : Groups) :
    Session × Groups :=
  if s.is_authenticated = false then
    ({ s with outbuf := s.outbuf ++ "UNAUTHORIZED\n" }, g)
  else if parts.length < 2 then
    ({ s with outbuf := s.outbuf ++ "ERR BAD_COMMAND\nUSAGE: SUB <GROUP_NAME>\n" }, g)
  else
    let group := parts.getD 1 ""
    if group = "" then
      ({ s with outbuf := s.outbuf ++ "ERR BAD_COMMAND\nUSAGE: SUB <GROUP_NAME>\n" }, g)
    else
      ({ s with outbuf := s.outbuf ++ "SUBSCRIEBED\n" }, subscribe g group clientId)

end Net

namespace Tradestack

/-- An empty side book. -/
def emptySide (s : Side) : SideTree := { levels := [], m_orderCnt := 0, m_side := s }

/-- A freshly constructed instrument: empty books, all statistics zero
(the member initialisers of src/include/instrument.hpp). -/
def inst0 : Instrument :=
  { symbol := "SYM", buy_side := emptySide Side.Buy, sell_side := emptySide Side.Sell,
    last_trade_price := 0, last_trade_size := 0, volume_today := 0, vwap_numerator := 0,
    open_ := 0, high := 0, low := 0, close := 0 }

/-- Scenario S1's resting order: BUY 10 @ 100. -/
def s1Buy : Order :=
  { id := "B1", clientOrderId := "", clientId := "CB", price := 100,
    remainingQuantity := 10, filledQuantity := 0, side := Side.Buy, type := OrderType.Limit }

/-- Scenario S3's incoming order: SELL 4 @ 95. -/
def s3Sell : Order :=
  { id := "S1", clientOrderId := "", clientId := "CS", price := 95,
    remainingQuantity := 4, filledQuantity := 0, side := Side.Sell, type := OrderType.Limit }

/-- The book state of scenario S1: a single resting BUY 10 @ 100,
otherwise empty. -/
def inst1 : Instrument := { inst0 with buy_side := (emptySide Side.Buy).insert s1Buy }

/-- A resting order used by the concrete book examples. -/
def ordA : Order :=
  { id := "A1", clientOrderId := "", clientId := "CA", price := 100,
    remainingQuantity := 5, filledQuantity := 0, side := Side.Buy, type := OrderType.Limit }

/-- A second order with the same price as `ordA` but a different id. -/
def ordB : Order :=
  { id := "B9", clientOrderId := "", clientId := "CB", price := 100,
    remainingQuantity := 7, filledQuantity := 0, side := Side.Buy, type := OrderType.Limit }

/-- A buy book in which only `ordA` rests at price 100 (`ordB` is not
resting). -/
def bookA : SideTree :=
  { levels := [{ price := 100, level := [ordA] }], m_orderCnt := 1, m_side := Side.Buy }

/-- A buy book in which `ordA` and `ordB` rest at price 100 in FIFO
order. -/
def bookAB : SideTree :=
  { levels := [{ price := 100, level := [ordA, ordB] }], m_orderCnt := 2, m_side := Side.Buy }

/-- An incoming sell that crosses the level at 100: SELL 3 @ 95. -/
def ordS : Order :=
  { id := "S7", clientOrderId := "", clientId := "CS", price := 95,
    remainingQuantity := 3, filledQuantity := 0, side := Side.Sell, type := OrderType.Limit }

/-- The order queue at price `p` in a side book (empty if no such
level). -/
def levelOrdersAt (b : SideTree) (p : Nat) : List Order :=
  match findLevel b.levels p with
  | some nd => nd.level
  | none => []

/-- A crossed instrument: `ordA` and `ordB` resting at buy 100, `ordS`
resting at sell 95. -/
def instCrossed : Instrument :=
  { inst0 with
    buy_side := bookAB,
    sell_side :=
      { levels := [{ price := 95, level := [ordS] }], m_orderCnt := 1, m_side := Side.Sell } }

/-- The result of one matching iteration on `instCrossed` (a default
dummy is never used: the step succeeds). -/
def stepRes : Instrument × Fill :=
  (instCrossed.matchStep).getD
    (instCrossed, { price := 0, qty := 0, buyerId := "", sellerId := "" })

end Tradestack

namespace Net

/-- A pre-auth session on transport handle 5. -/
def sessT : Session := { fd := 5, is_authenticated := false, client_id := "", outbuf := "" }

/-- A session authenticated as client "X" on transport handle 7. -/
def sessU : Session := { fd := 7, is_authenticated := true, client_id := "X", outbuf := "" }

/-- A server state holding `sessT` (pre-auth) and `sessU` (authenticated
under "X"). -/
def st0 : ServerState :=
  { store := [(0, sessT), (1, sessU)],
    temp_sessions_ := [((5 : Int), 0), ((7 : Int), 1)],
    sessions_ := [("X", 1)] }

end Net


namespace Net

theorem alookup_cons {K V : Type} [BEq K] (p : K × V) (m : List (K × V)) (k : K) :
    alookup (p :: m) k = if (p.1 == k) = true then some p.2 else alookup m k := by
  by_cases h : (p.1 == k) = true
  · rw [alookup, @List.find?_cons_of_pos _ (fun p => p.1 == k) p m h, if_pos h]
    rfl
  · rw [alookup, @List.find?_cons_of_neg _ (fun p => p.1 == k) p m h, if_neg h]
    rfl

theorem alookup_mem {K V : Type} [BEq K] [LawfulBEq K] (m : List (K × V)) (k : K) (v : V)
    (h : alookup m k = some v) : (k, v) ∈ m := by
  induction m with
  | nil => simp [alookup] at h
  | cons p rest ih =>
    obtain ⟨p1, p2⟩ := p
    rw [alookup_cons] at h
    by_cases hp : (p1 == k) = true
    · rw [if_pos hp] at h
      have e1 : p1 = k := eq_of_beq hp
      have e2 : p2 = v := Option.some.inj h
      rw [← e1, ← e2]
      exact List.mem_cons_self _ _
    · rw [if_neg hp] at h
      exact List.mem_cons_of_mem _ (ih h)

theorem alookup_aerase_self {K V : Type} [BEq K] (m : List (K × V)) (k : K) :
    alookup (aerase m k) k = none := by
  induction m with
  | nil => rfl
  | cons p rest ih =>
    rw [aerase] at ih ⊢
    rw [List.filter_cons]
    by_cases hp : (p.1 == k) = true
    · rw [if_neg (by simp [hp])]
      exact ih
    · rw [if_pos (by simp [hp]), alookup_cons, if_neg hp]
      exact ih

theorem alookup_aerase_ne {K V : Type} [BEq K] [LawfulBEq K] (m : List (K × V)) (k k' : K)
    (hne : k' ≠ k) : alookup (aerase m k) k' = alookup m k' := by
  induction m with
  | nil => rfl
  | cons p rest ih =>
    rw [aerase] at ih ⊢
    rw [List.filter_cons]
    by_cases hp : (p.1 == k) = true
    · have e1 : p.1 = k := eq_of_beq hp
      have e2 : ¬ ((p.1 == k') = true) := by
        rw [e1]
        simp only [beq_iff_eq]
        exact fun hh => hne hh.symm
      rw [if_neg (by simp [hp]), alookup_cons, if_neg e2]
      exact ih
    · rw [if_pos (by simp [hp]), alookup_cons, alookup_cons]
      by_cases hk' : (p.1 == k') = true
      · rw [if_pos hk', if_pos hk']
      · rw [if_neg hk', if_neg hk']
        exact ih

theorem alookup_map_replace {K V : Type} [BEq K] (m : List (K × V)) (k : K) (v : V) :
    alookup (m.map (fun p => if p.1 == k then (p.1, v) else p)) k =
      Option.map (fun _ => v) (alookup m k) := by
  induction m with
  | nil => rfl
  | cons p rest ih =>
    by_cases hp : (p.1 == k) = true
    · simp only [List.map_cons, hp, if_true, ite_true, alookup_cons]
      rfl
    · simp only [List.map_cons, hp, if_false, ite_false, alookup_cons, Bool.false_eq_true]
      exact ih

theorem alookup_map_replace_ne {K V : Type} [BEq K] [LawfulBEq K] (m : List (K × V))
    (k k' : K) (v : V) (hne : k' ≠ k) :
    alookup (m.map (fun p => if p.1 == k then (p.1, v) else p)) k' = alookup m k' := by
  induction m with
  | nil => rfl
  | cons p rest ih =>
    by_cases hp : (p.1 == k) = true
    · have e1 : p.1 = k := eq_of_beq hp
      have e2 : ¬ ((p.1 == k') = true) := by
        rw [e1]
        simp only [beq_iff_eq]
        exact fun hh => hne hh.symm
      simp only [List.map_cons, hp, if_true, ite_true, alookup_cons, e2, if_false, ite_false,
        Bool.false_eq_true]
      exact ih
    · simp only [List.map_cons, hp, if_false, ite_false, alookup_cons, Bool.false_eq_true]
      by_cases hk' : (p.1 == k') = true
      · rw [if_pos hk', if_pos hk']
      · rw [if_neg hk', if_neg hk']
        exact ih

theorem alookup_append_single {K V : Type} [BEq K] [LawfulBEq K] (m : List (K × V)) (k : K) (v : V)
    (h : alookup m k = none) : alookup (m ++ [(k, v)]) k = some v := by
  induction m with
  | nil => simp [alookup_cons]
  | cons p rest ih =>
    rw [alookup_cons] at h
    rw [List.cons_append, alookup_cons]
    by_cases hp : (p.1 == k) = true
    · rw [if_pos hp] at h
      exact absurd h (by simp)
    · rw [if_neg hp] at h
      rw [if_neg hp]
      exact ih h

theorem alookup_append_single_ne {K V : Type} [BEq K] [LawfulBEq K] (m : List (K × V))
    (k k' : K) (v : V) (hne : k' ≠ k) : alookup (m ++ [(k, v)]) k' = alookup m k' := by
  induction m with
  | nil =>
    rw [List.nil_append, alookup_cons,
      if_neg (by simp only [beq_iff_eq]; exact fun hh => hne hh.symm)]
  | cons p rest ih =>
    rw [List.cons_append, alookup_cons, alookup_cons]
    by_cases hp : (p.1 == k') = true
    · rw [if_pos hp, if_pos hp]
    · rw [if_neg hp, if_neg hp]
      exact ih

theorem alookup_aset_self {K V : Type} [BEq K] [LawfulBEq K] (m : List (K × V)) (k : K) (v : V) :
    alookup (aset m k v) k = some v := by
  rw [aset]
  by_cases h : (List.find? (fun p => p.1 == k) m).isSome
  · rw [if_pos h, alookup_map_replace]
    obtain ⟨p, hp⟩ := Option.isSome_iff_exists.1 h
    have he : alookup m k = some p.2 := by rw [alookup, hp]; rfl
    rw [he]
    rfl
  · rw [if_neg h]
    refine alookup_append_single m k v ?_
    rw [alookup]
    cases hfl : List.find? (fun p => p.1 == k) m with
    | none => rfl
    | some p => rw [hfl] at h; simp at h

theorem alookup_aset_ne {K V : Type} [BEq K] [LawfulBEq K] (m : List (K × V)) (k k' : K)
    (v : V) (hne : k' ≠ k) : alookup (aset m k v) k' = alookup m k' := by
  rw [aset]
  by_cases h : (List.find? (fun p => p.1 == k) m).isSome
  · rw [if_pos h]
    exact alookup_map_replace_ne m k k' v hne
  · rw [if_neg h]
    exact alookup_append_single_ne m k k' v hne


theorem remove_session_spec (st : ServerState) (fd : Int) (sid : Nat) (s : Session)
    (htemp : alookup st.temp_sessions_ fd = some sid)
    (hstore : alookup st.store sid = some s)
    (hauth : s.is_authenticated = true) (hcid : s.client_id ≠ "")
    (hsess : alookup st.sessions_ s.client_id = some sid) :
    remove_session st fd =
      { store := aset st.store sid s.close_fd,
        temp_sessions_ := aerase st.temp_sessions_ fd,
        sessions_ := aerase st.sessions_ s.client_id } := by
  rw [remove_session, htemp]
  dsimp only
  rw [hstore]
  dsimp only
  have hcond : (s.is_authenticated && s.client_id != "") = true := by
    rw [hauth]
    simp [hcid]
  rw [if_pos hcond]
  rw [hsess]
  dsimp only
  rw [if_pos rfl]

theorem authRegister_spec (st1 : ServerState) (tsid usid : Nat) (t u : Session) (X : String)
    (hS : alookup st1.sessions_ X = some usid)
    (hust : alookup st1.store usid = some u)
    (ht : alookup st1.store tsid = some t)
    (hfd : (u.fd != t.fd) = true)
    (hne : usid ≠ tsid)
    (hauth : u.is_authenticated = true) (hcidX : u.client_id = X) (hXne : X ≠ "")
    (htempu : alookup st1.temp_sessions_ u.fd = some usid)
    (h0fd : 0 ≤ u.fd)
    (hNoOther : ∀ c, c ≠ X → alookup st1.sessions_ c ≠ some usid) :
    (∃ u2, alookup (authRegister st1 tsid t X).store usid = some u2 ∧ u2.fd = -1) ∧
    alookup (authRegister st1 tsid t X).temp_sessions_ u.fd = none ∧
    (∀ c, alookup (authRegister st1 tsid t X).sessions_ c ≠ some usid) ∧
    alookup (authRegister st1 tsid t X).sessions_ X = some tsid := by
  have hsessX : alookup st1.sessions_ u.client_id = some usid := by rw [hcidX]; exact hS
  have hcidne : u.client_id ≠ "" := by rw [hcidX]; exact hXne
  have hrs := remove_session_spec st1 u.fd usid u htempu hust hauth hcidne hsessX
  have htne : tsid ≠ usid := Ne.symm hne
  unfold authRegister
  rw [hS]
  dsimp only
  rw [hust]
  dsimp only
  rw [if_pos hfd, hrs]
  dsimp only
  rw [alookup_aset_ne st1.store usid tsid u.close_fd htne, ht]
  dsimp only
  rw [enqueue]
  dsimp only
  rw [alookup_aset_self]
  dsimp only
  refine ⟨⟨u.close_fd, ?_, ?_⟩, ?_, ?_, ?_⟩
  · rw [alookup_aset_ne _ _ _ _ hne, alookup_aset_ne _ _ _ _ hne, alookup_aset_self]
  · rw [Session.close_fd, if_pos h0fd]
  · exact alookup_aerase_self _ _
  · intro c
    by_cases hc : c = X
    · rw [hc, alookup_aset_self]
      intro h
      exact hne (Option.some.inj h).symm
    · rw [alookup_aset_ne _ _ _ _ hc, hcidX, alookup_aerase_ne _ _ _ hc]
      exact hNoOther c hc
  · rw [alookup_aset_self]

/-- C7: after a successful AUTH with client id `X` on session `T` (store
id `tsid`), when a distinct session `U` (store id `usid`) was registered
in the authenticated table under `X`, the AUTH handler evicts `U` — its
transport handle is closed (set to -1 in the stored session) and it is
removed from both the pre-auth table and the authenticated table — and
`T` becomes the session registered under `X` (newest login wins). -/
theorem auth_supersedes_login (st : ServerState) (tsid usid : Nat) (t : Session)
    (parts : List String) (X : String)
    (hwf : st.WF)
    (ht : alookup st.store tsid = some t)
    (htempt : alookup st.temp_sessions_ t.fd = some tsid)
    (hU : alookup st.sessions_ X = some usid)
    (hne : usid ≠ tsid)
    (hlen : ¬ parts.length < 3)
    (hkey : iequals (parts.getD 1 "") EASTER_EGG = true)
    (hX : parts.getD 2 "" = X) :
    ∃ u, alookup st.store usid = some u ∧
      (∃ u2, alookup (authProcessor st tsid parts).store usid = some u2 ∧ u2.fd = -1) ∧
      alookup (authProcessor st tsid parts).temp_sessions_ u.fd = none ∧
      (∀ c, alookup (authProcessor st tsid parts).sessions_ c ≠ some usid) ∧
      alookup (authProcessor st tsid parts).sessions_ X = some tsid := by
  obtain ⟨_, _, _, htempInv, hsessInv⟩ := hwf
  have hXmem : (X, usid) ∈ st.sessions_ := alookup_mem _ _ _ hU
  obtain ⟨u, hust, huauth, hucid, hXne, htempu⟩ := hsessInv (X, usid) hXmem
  dsimp only at hust hucid hXne htempu
  have hfdmem : (u.fd, usid) ∈ st.temp_sessions_ := alookup_mem _ _ _ htempu
  obtain ⟨u', _, _, h0fd, _⟩ := htempInv (u.fd, usid) hfdmem
  dsimp only at h0fd
  have hfd : (u.fd != t.fd) = true := by
    rw [bne_iff_ne]
    intro heq
    rw [heq, htempt] at htempu
    exact hne (Option.some.inj htempu).symm
  have hNoOther : ∀ c, c ≠ X → alookup st.sessions_ c ≠ some usid := by
    intro c hc hcl
    have hcm : (c, usid) ∈ st.sessions_ := alookup_mem _ _ _ hcl
    obtain ⟨s2, hs2, _, hs2cid, _, _⟩ := hsessInv (c, usid) hcm
    dsimp only at hs2 hs2cid
    rw [hust] at hs2
    have hs2u : s2 = u := (Option.some.inj hs2).symm
    exact hc (by rw [← hs2cid, hs2u, hucid])
  have hcond2 : (t.is_authenticated && t.client_id == X) = false := by
    cases hta : t.is_authenticated with
    | false => rfl
    | true =>
      rw [Bool.true_and]
      cases htc : t.client_id == X with
      | false => rfl
      | true =>
        exfalso
        have htcX : t.client_id = X := eq_of_beq htc
        have htm : (t.fd, tsid) ∈ st.temp_sessions_ := alookup_mem _ _ _ htempt
        obtain ⟨t2, ht2, _, _, ht2impl⟩ := htempInv (t.fd, tsid) htm
        rw [ht] at ht2
        have ht2t : t2 = t := (Option.some.inj ht2).symm
        have hsx : alookup st.sessions_ t.client_id = some tsid := by
          rw [← ht2t]
          exact ht2impl (by rw [ht2t, hta]) (by rw [ht2t, htcX]; exact hXne)
        rw [htcX, hU] at hsx
        exact hne (Option.some.inj hsx)
  have hkey' : (!(iequals (parts.getD 1 "") EASTER_EGG)) = false := by
    rw [hkey]
    rfl
  have hAPeq : authProcessor st tsid parts =
      authRegister (if t.is_authenticated && t.client_id != "" then
          { st with sessions_ := aerase st.sessions_ t.client_id } else st) tsid t X := by
    unfold authProcessor
    rw [ht]
    dsimp only
    rw [if_neg hlen, hkey']
    rw [if_neg Bool.false_ne_true]
    rw [hX, hcond2]
    rw [if_neg Bool.false_ne_true]
  refine ⟨u, hust, ?_⟩
  rw [hAPeq]
  by_cases hb : (t.is_authenticated && t.client_id != "") = true
  · rw [if_pos hb]
    have htaT : t.is_authenticated = true := by
      cases hta : t.is_authenticated with
      | true => rfl
      | false => rw [hta, Bool.false_and] at hb; exact absurd hb Bool.false_ne_true
    have htcne : t.client_id ≠ X := by
      intro hcc
      rw [htaT, Bool.true_and, hcc] at hcond2
      simp at hcond2
    have hS1 : alookup (aerase st.sessions_ t.client_id) X = some usid := by
      rw [alookup_aerase_ne _ _ _ (Ne.symm htcne)]
      exact hU
    have hNoOther1 : ∀ c, c ≠ X →
        alookup (aerase st.sessions_ t.client_id) c ≠ some usid := by
      intro c hc
      by_cases hct : c = t.client_id
      · rw [hct, alookup_aerase_self]
        exact fun h => Option.noConfusion h
      · rw [alookup_aerase_ne _ _ _ hct]
        exact hNoOther c hc
    exact authRegister_spec _ tsid usid t u X hS1 hust ht hfd hne huauth hucid hXne
      htempu h0fd hNoOther1
  · rw [if_neg hb]
    exact authRegister_spec st tsid usid t u X hU hust ht hfd hne huauth hucid hXne
      htempu h0fd hNoOther

theorem st0_wf : st0.WF := by
  refine ⟨by decide, by decide, by decide, ?_, ?_⟩
  · intro p hp
    simp only [st0, List.mem_cons, List.not_mem_nil, or_false] at hp
    rcases hp with rfl | rfl
    · exact ⟨sessT, rfl, rfl, by decide, fun h => absurd h (by decide)⟩
    · exact ⟨sessU, rfl, rfl, by decide, fun _ _ => rfl⟩
  · intro q hq
    simp only [st0, List.mem_cons, List.not_mem_nil, or_false] at hq
    rcases hq with rfl
    exact ⟨sessU, rfl, rfl, rfl, by decide, rfl⟩

theorem auth_supersedes_login_witness :
    (∃ u2, alookup (authProcessor st0 0 ["AUTH", "pawy", "X"]).store 1 = some u2 ∧
      u2.fd = -1) ∧
    alookup (authProcessor st0 0 ["AUTH", "pawy", "X"]).sessions_ "X" = some 0 := by
  obtain ⟨u, _, h1, _, _, h4⟩ :=
    auth_supersedes_login st0 0 1 sessT ["AUTH", "pawy", "X"] "X" st0_wf rfl rfl rfl
      (by decide) (by decide) (by decide) rfl
  exact ⟨h1, h4⟩
end Net

namespace Tradestack

theorem orderMatches_self (o : Order) : orderMatches o o = true := by
  simp [orderMatches]

theorem eraseFirstMatch_cons_self (o : Order) (rest : List Order) :
    eraseFirstMatch o (o :: rest) = (rest, true) := by
  simp [eraseFirstMatch, orderMatches_self]

theorem findLevel_cons_self (nd : PriceLevelNode) (rest : List PriceLevelNode) :
    findLevel (nd :: rest) nd.price = some nd := by
  simp [findLevel]

theorem map_id_of_mem {α : Type} (l : List α) (f : α → α) (h : ∀ x ∈ l, f x = x) :
    l.map f = l := by
  induction l with
  | nil => rfl
  | cons x xs ih =>
    simp only [List.map_cons, h x (List.mem_cons_self x xs),
      ih (fun y hy => h y (List.mem_cons_of_mem x hy))]

theorem findLevel_concat_self (init : List PriceLevelNode) (nd : PriceLevelNode)
    (h : ∀ l ∈ init, l.price ≠ nd.price) :
    findLevel (init ++ [nd]) nd.price = some nd := by
  induction init with
  | nil => simp [findLevel]
  | cons x xs ih =>
    have hx : ¬ x.price = nd.price := h x (List.mem_cons_self x xs)
    rw [findLevel, List.cons_append, List.find?_cons_of_neg _ (by simp [hx])]
    exact ih (fun l hl => h l (List.mem_cons_of_mem x hl))

theorem filter_price_concat (init : List PriceLevelNode) (nd : PriceLevelNode) (p : Nat)
    (h : ∀ l ∈ init, l.price ≠ p) (hnd : nd.price = p) :
    (init ++ [nd]).filter (fun l => l.price != p) = init := by
  rw [List.filter_append]
  have h1 : init.filter (fun l => l.price != p) = init :=
    List.filter_eq_self.2 (fun l hl => by simp [h l hl])
  have h2 : [nd].filter (fun l => l.price != p) = [] := by simp [hnd]
  rw [h1, h2, List.append_nil]

theorem filter_price_cons (nd : PriceLevelNode) (rest : List PriceLevelNode) (p : Nat)
    (h : ∀ l ∈ rest, l.price ≠ p) (hnd : nd.price = p) :
    (nd :: rest).filter (fun l => l.price != p) = rest := by
  have h1 : rest.filter (fun l => l.price != p) = rest :=
    List.filter_eq_self.2 (fun l hl => by simp [h l hl])
  simp [hnd, h1]

theorem map_level_concat (init : List PriceLevelNode) (nd : PriceLevelNode) (p : Nat)
    (g : PriceLevelNode → PriceLevelNode)
    (h : ∀ l ∈ init, l.price ≠ p) (hnd : nd.price = p) :
    (init ++ [nd]).map (fun l => if l.price == p then g l else l) = init ++ [g nd] := by
  rw [List.map_append]
  congr 1
  · exact map_id_of_mem init _ (fun l hl => by simp [h l hl])
  · simp [hnd]

theorem map_level_cons (nd : PriceLevelNode) (rest : List PriceLevelNode) (p : Nat)
    (g : PriceLevelNode → PriceLevelNode)
    (h : ∀ l ∈ rest, l.price ≠ p) (hnd : nd.price = p) :
    (nd :: rest).map (fun l => if l.price == p then g l else l) = g nd :: rest := by
  have h1 : rest.map (fun l => if l.price == p then g l else l) = rest :=
    map_id_of_mem rest _ (fun l hl => by simp [h l hl])
  rw [List.map_cons, h1]
  congr 1
  rw [if_pos (by simp [hnd])]

theorem mapLast_concat (f : α → α) (xs : List α) (x : α) :
    mapLast f (xs ++ [x]) = xs ++ [f x] := by
  induction xs with
  | nil => simp [mapLast]
  | cons y ys ih =>
    cases ys with
    | nil => simp [mapLast]
    | cons z zs =>
      simp only [List.cons_append] at ih ⊢
      rw [mapLast, ih]

theorem remove_head_concat (b : SideTree) (init : List PriceLevelNode)
    (p : Nat) (o' : Order) (rest : List Order)
    (hsorted : ∀ l ∈ init, l.price ≠ p)
    (hlev : b.levels = init ++ [{ price := p, level := o' :: rest }])
    (hp : o'.price = p) :
    b.remove o' = (if rest = [] then none else some p,
      { b with
        levels := if rest = [] then init else init ++ [{ price := p, level := rest }],
        m_orderCnt := b.m_orderCnt - 1 }) := by
  have hfind : findLevel b.levels o'.price = some { price := p, level := o' :: rest } := by
    rw [hlev, hp]
    exact findLevel_concat_self init _ (fun l hl => hsorted l hl)
  rw [SideTree.remove, hfind]
  simp only [eraseFirstMatch_cons_self, Bool.not_true, Bool.false_eq_true, if_false,
    List.isEmpty_iff]
  by_cases hrest : rest = []
  · simp only [hrest, if_true, ite_true]
    congr 2
    rw [hlev, hp]
    exact filter_price_concat init _ p hsorted rfl
  · simp only [hrest, if_false, ite_false]
    congr 3
    rw [hlev, hp]
    exact map_level_concat init _ p _ hsorted rfl

theorem remove_head_cons (b : SideTree) (stail : List PriceLevelNode)
    (p : Nat) (o' : Order) (rest : List Order)
    (hsorted : ∀ l ∈ stail, l.price ≠ p)
    (hlev : b.levels = { price := p, level := o' :: rest } :: stail)
    (hp : o'.price = p) :
    b.remove o' = (if rest = [] then none else some p,
      { b with
        levels := if rest = [] then stail else { price := p, level := rest } :: stail,
        m_orderCnt := b.m_orderCnt - 1 }) := by
  have hfind : findLevel b.levels o'.price = some { price := p, level := o' :: rest } := by
    rw [hlev, hp]
    exact findLevel_cons_self _ stail
  rw [SideTree.remove, hfind]
  simp only [eraseFirstMatch_cons_self, Bool.not_true, Bool.false_eq_true, if_false,
    List.isEmpty_iff]
  by_cases hrest : rest = []
  · simp only [hrest, if_true, ite_true]
    congr 2
    rw [hlev, hp]
    exact filter_price_cons _ stail p hsorted rfl
  · simp only [hrest, if_false, ite_false]
    congr 3
    rw [hlev, hp]
    exact map_level_cons _ stail p _ hsorted rfl

theorem matchStep_eq (i : Instrument) (binit : List PriceLevelNode)
    (bp : Nat) (bo : Order) (brest : List Order)
    (sp : Nat) (so : Order) (sorest : List Order) (stail : List PriceLevelNode)
    (q : Nat)
    (hwb : i.buy_side.WF) (hws : i.sell_side.WF)
    (hb : i.buy_side.levels = binit ++ [{ price := bp, level := bo :: brest }])
    (hs : i.sell_side.levels = { price := sp, level := so :: sorest } :: stail)
    (hcross : sp ≤ bp)
    (hq : q = min bo.remainingQuantity so.remainingQuantity) :
    i.matchStep = some
      ({ i with
          buy_side := { i.buy_side with
            levels :=
              if (fillUpd bo q).remainingQuantity = 0 then
                (if brest = [] then binit else binit ++ [{ price := bp, level := brest }])
              else binit ++ [{ price := bp, level := fillUpd bo q :: brest }],
            m_orderCnt :=
              if (fillUpd bo q).remainingQuantity = 0 then i.buy_side.m_orderCnt - 1
              else i.buy_side.m_orderCnt },
          sell_side := { i.sell_side with
            levels :=
              if (fillUpd so q).remainingQuantity = 0 then
                (if sorest = [] then stail else { price := sp, level := sorest } :: stail)
              else { price := sp, level := fillUpd so q :: sorest } :: stail,
            m_orderCnt :=
              if (fillUpd so q).remainingQuantity = 0 then i.sell_side.m_orderCnt - 1
              else i.sell_side.m_orderCnt },
          last_trade_price := sp,
          last_trade_size := q,
          high := max i.high sp,
          low := min i.low sp,
          open_ := if i.open_ = 0 then sp else i.open_,
          close := sp },
        { price := sp, qty := q, buyerId := bo.clientId, sellerId := so.clientId }) := by
  obtain ⟨hbp, hbne, hbpr⟩ := hwb
  obtain ⟨hsp, hsne, hspr⟩ := hws
  have hbomem : ({ price := bp, level := bo :: brest } : PriceLevelNode) ∈ i.buy_side.levels := by
    rw [hb]; simp
  have hbo_price : bo.price = bp := hbpr _ hbomem bo (by simp)
  have hsomem : ({ price := sp, level := so :: sorest } : PriceLevelNode) ∈ i.sell_side.levels := by
    rw [hs]; simp
  have hso_price : so.price = sp := hspr _ hsomem so (by simp)
  have hbinit : ∀ l ∈ binit, l.price ≠ bp := by
    rw [hb] at hbp
    have h2 := (List.pairwise_append.1 hbp).2.2
    intro l hl
    exact Nat.ne_of_lt
      (h2 l hl { price := bp, level := bo :: brest } (List.mem_singleton.2 rfl))
  have hstail : ∀ l ∈ stail, l.price ≠ sp := by
    rw [hs] at hsp
    intro l hl
    exact (Nat.ne_of_lt ((List.pairwise_cons.1 hsp).1 l hl)).symm
  have hhigh : i.buy_side.high = some { price := bp, level := bo :: brest } := by
    rw [SideTree.high, hb]; exact List.getLast?_concat _
  have hlow : i.sell_side.low = some { price := sp, level := so :: sorest } := by
    rw [SideTree.low, hs]; rfl
  have hnotlt : ¬ (bp < sp) := by omega
  have hbrem :
      ({ i.buy_side with
          levels := mapLast (fun nd => setHeadOrder nd (fillUpd bo q)) i.buy_side.levels }
        : SideTree).remove (fillUpd bo q) =
      (if brest = [] then none else some bp,
        { i.buy_side with
          levels := if brest = [] then binit else binit ++ [{ price := bp, level := brest }],
          m_orderCnt := i.buy_side.m_orderCnt - 1 }) := by
    apply remove_head_concat _ binit bp (fillUpd bo q) brest hbinit
    · rw [hb, mapLast_concat]
      rfl
    · simpa [fillUpd] using hbo_price
  have hsrem :
      ({ i.sell_side with
          levels := mapHead (fun nd => setHeadOrder nd (fillUpd so q)) i.sell_side.levels }
        : SideTree).remove (fillUpd so q) =
      (if sorest = [] then none else some sp,
        { i.sell_side with
          levels := if sorest = [] then stail else { price := sp, level := sorest } :: stail,
          m_orderCnt := i.sell_side.m_orderCnt - 1 }) := by
    apply remove_head_cons _ stail sp (fillUpd so q) sorest hstail
    · rw [hs, mapHead]
      rfl
    · simpa [fillUpd] using hso_price
  have hbmap : mapLast (fun nd => setHeadOrder nd (fillUpd bo q)) i.buy_side.levels =
      binit ++ [{ price := bp, level := fillUpd bo q :: brest }] := by
    rw [hb, mapLast_concat]; rfl
  have hsmap : mapHead (fun nd => setHeadOrder nd (fillUpd so q)) i.sell_side.levels =
      { price := sp, level := fillUpd so q :: sorest } :: stail := by
    rw [hs, mapHead]; rfl
  rw [Instrument.matchStep, hhigh, hlow]
  simp only [List.head?_cons, hnotlt, if_false, ite_false]
  rw [← hq]
  simp only [hbrem, hsrem]
  by_cases hbz : (fillUpd bo q).remainingQuantity = 0 <;>
    by_cases hsz : (fillUpd so q).remainingQuantity = 0 <;>
      simp only [hbz, hsz, if_true, if_false, ite_true, ite_false, hbmap, hsmap] <;>
        simp [Instrument.fillStatsUpdate, Instrument.updatePrices]


theorem pairwise_replace_mid (pre post : List PriceLevelNode) (x x' : PriceLevelNode)
    (hp : List.Pairwise (fun a c => a.price < c.price) (pre ++ x :: post))
    (hpx : x'.price = x.price) :
    List.Pairwise (fun a c => a.price < c.price) (pre ++ x' :: post) := by
  rw [List.pairwise_append] at hp ⊢
  obtain ⟨h1, h2, h3⟩ := hp
  rw [List.pairwise_cons] at h2 ⊢
  refine ⟨h1, ⟨fun c hc => ?_, h2.2⟩, fun a ha c hc => ?_⟩
  · rw [hpx]; exact h2.1 c hc
  · rcases List.mem_cons.1 hc with rfl | hc2
    · rw [hpx]; exact h3 a ha x (List.mem_cons_self x post)
    · exact h3 a ha c (List.mem_cons_of_mem x hc2)

theorem pairwise_drop_mid (pre post : List PriceLevelNode) (x : PriceLevelNode)
    (hp : List.Pairwise (fun a c => a.price < c.price) (pre ++ x :: post)) :
    List.Pairwise (fun a c => a.price < c.price) (pre ++ post) :=
  hp.sublist (List.Sublist.append (List.Sublist.refl pre) (List.sublist_cons_self x post))

theorem side_after_totals (b b' : SideTree) (pre post : List PriceLevelNode) (p : Nat)
    (o : Order) (rest : List Order) (q : Nat)
    (hb : b.levels = pre ++ { price := p, level := o :: rest } :: post)
    (hb' : b'.levels =
      if (fillUpd o q).remainingQuantity = 0 then
        (if rest = [] then pre ++ post else pre ++ { price := p, level := rest } :: post)
      else pre ++ { price := p, level := fillUpd o q :: rest } :: post)
    (hq : q ≤ o.remainingQuantity) :
    b.totalRemaining = b'.totalRemaining + q ∧
    b'.totalOrders ≤ b.totalOrders ∧
    ((fillUpd o q).remainingQuantity = 0 → b.totalOrders = b'.totalOrders + 1) := by
  by_cases hz : (fillUpd o q).remainingQuantity = 0
  · have hoq : o.remainingQuantity = q := by
      simp only [fillUpd] at hz
      omega
    by_cases hrest : rest = []
    · subst hrest
      simp only [hz, if_true, ite_true] at hb'
      refine ⟨?_, ?_, fun _ => ?_⟩ <;>
        · simp only [SideTree.totalRemaining, SideTree.totalOrders, hb, hb',
            List.map_append, List.sum_append, List.map_cons, List.sum_cons,
            List.map_nil, List.sum_nil, List.length_cons, List.length_nil]
          omega
    · simp only [hz, hrest, if_true, ite_true, if_false, ite_false] at hb'
      refine ⟨?_, ?_, fun _ => ?_⟩ <;>
        · simp only [SideTree.totalRemaining, SideTree.totalOrders, hb, hb',
            List.map_append, List.sum_append, List.map_cons, List.sum_cons,
            List.map_nil, List.sum_nil, List.length_cons, List.length_nil]
          omega
  · simp only [hz, if_false, ite_false] at hb'
    have hfu : (fillUpd o q).remainingQuantity = o.remainingQuantity - q := rfl
    refine ⟨?_, ?_, fun h => absurd h hz⟩ <;>
      · simp only [SideTree.totalRemaining, SideTree.totalOrders, hb, hb',
          List.map_append, List.sum_append, List.map_cons, List.sum_cons,
          List.map_nil, List.sum_nil, List.length_cons, List.length_nil, hfu]
        omega

theorem side_after_wf_pos (b b' : SideTree) (pre post : List PriceLevelNode) (p : Nat)
    (o : Order) (rest : List Order) (q : Nat)
    (hwf : b.WF)
    (hb : b.levels = pre ++ { price := p, level := o :: rest } :: post)
    (hb' : b'.levels =
      if (fillUpd o q).remainingQuantity = 0 then
        (if rest = [] then pre ++ post else pre ++ { price := p, level := rest } :: post)
      else pre ++ { price := p, level := fillUpd o q :: rest } :: post) :
    (List.Pairwise (fun a c => a.price < c.price) b'.levels ∧
      (∀ nd ∈ b'.levels, nd.level ≠ []) ∧
      ∀ nd ∈ b'.levels, ∀ o2 ∈ nd.level, o2.price = nd.price) ∧
    (b.allRemPos → ∀ nd ∈ b'.levels, ∀ o2 ∈ nd.level, 1 ≤ o2.remainingQuantity) := by
  obtain ⟨hpw, hne, hpr⟩ := hwf
  rw [hb] at hpw hne hpr
  have hmidmem : ({ price := p, level := o :: rest } : PriceLevelNode) ∈
      pre ++ { price := p, level := o :: rest } :: post := by simp
  have hop : o.price = p := hpr _ hmidmem o (List.mem_cons_self o rest)
  have hrestpr : ∀ o2 ∈ rest, o2.price = p :=
    fun o2 h2 => hpr _ hmidmem o2 (List.mem_cons_of_mem o h2)
  have hside : ∀ nd, nd ∈ pre ∨ nd ∈ post → nd ∈
      pre ++ { price := p, level := o :: rest } :: post := by
    intro nd hnd
    rcases hnd with hnd | hnd
    · exact List.mem_append_left _ hnd
    · exact List.mem_append_right _ (List.mem_cons_of_mem _ hnd)
  constructor
  · refine ⟨?_, ?_, ?_⟩
    · by_cases hz : (fillUpd o q).remainingQuantity = 0
      · by_cases hrest : rest = []
        · simp only [hz, hrest, if_true, ite_true] at hb'
          rw [hb']
          exact pairwise_drop_mid pre post _ hpw
        · simp only [hz, hrest, if_true, ite_true, if_false, ite_false] at hb'
          rw [hb']
          exact pairwise_replace_mid pre post _ _ hpw rfl
      · simp only [hz, if_false, ite_false] at hb'
        rw [hb']
        exact pairwise_replace_mid pre post _ _ hpw rfl
    · intro nd hnd
      by_cases hz : (fillUpd o q).remainingQuantity = 0
      · by_cases hrest : rest = []
        · simp only [hz, hrest, if_true, ite_true] at hb'
          rw [hb'] at hnd
          exact hne nd (hside nd (List.mem_append.1 hnd))
        · simp only [hz, hrest, if_true, ite_true, if_false, ite_false] at hb'
          rw [hb'] at hnd
          rcases List.mem_append.1 hnd with h | h
          · exact hne nd (hside nd (Or.inl h))
          · rcases List.mem_cons.1 h with rfl | h2
            · simpa using hrest
            · exact hne nd (hside nd (Or.inr h2))
      · simp only [hz, if_false, ite_false] at hb'
        rw [hb'] at hnd
        rcases List.mem_append.1 hnd with h | h
        · exact hne nd (hside nd (Or.inl h))
        · rcases List.mem_cons.1 h with rfl | h2
          · simp
          · exact hne nd (hside nd (Or.inr h2))
    · intro nd hnd o2 ho2
      by_cases hz : (fillUpd o q).remainingQuantity = 0
      · by_cases hrest : rest = []
        · simp only [hz, hrest, if_true, ite_true] at hb'
          rw [hb'] at hnd
          exact hpr nd (hside nd (List.mem_append.1 hnd)) o2 ho2
        · simp only [hz, hrest, if_true, ite_true, if_false, ite_false] at hb'
          rw [hb'] at hnd
          rcases List.mem_append.1 hnd with h | h
          · exact hpr nd (hside nd (Or.inl h)) o2 ho2
          · rcases List.mem_cons.1 h with rfl | h2
            · exact hrestpr o2 ho2
            · exact hpr nd (hside nd (Or.inr h2)) o2 ho2
      · simp only [hz, if_false, ite_false] at hb'
        rw [hb'] at hnd
        rcases List.mem_append.1 hnd with h | h
        · exact hpr nd (hside nd (Or.inl h)) o2 ho2
        · rcases List.mem_cons.1 h with rfl | h2
          · rcases List.mem_cons.1 ho2 with rfl | h3
            · simpa [fillUpd] using hop
            · exact hrestpr o2 h3
          · exact hpr nd (hside nd (Or.inr h2)) o2 ho2
  · intro hpos nd hnd o2 ho2
    rw [SideTree.allRemPos] at hpos
    rw [hb] at hpos
    have hposmid : ∀ o3 ∈ rest, 1 ≤ o3.remainingQuantity :=
      fun o3 h3 => hpos _ hmidmem o3 (List.mem_cons_of_mem o h3)
    by_cases hz : (fillUpd o q).remainingQuantity = 0
    · by_cases hrest : rest = []
      · simp only [hz, hrest, if_true, ite_true] at hb'
        rw [hb'] at hnd
        exact hpos nd (hside nd (List.mem_append.1 hnd)) o2 ho2
      · simp only [hz, hrest, if_true, ite_true, if_false, ite_false] at hb'
        rw [hb'] at hnd
        rcases List.mem_append.1 hnd with h | h
        · exact hpos nd (hside nd (Or.inl h)) o2 ho2
        · rcases List.mem_cons.1 h with rfl | h2
          · exact hposmid o2 ho2
          · exact hpos nd (hside nd (Or.inr h2)) o2 ho2
    · simp only [hz, if_false, ite_false] at hb'
      rw [hb'] at hnd
      rcases List.mem_append.1 hnd with h | h
      · exact hpos nd (hside nd (Or.inl h)) o2 ho2
      · rcases List.mem_cons.1 h with rfl | h2
        · rcases List.mem_cons.1 ho2 with rfl | h3
          · omega
          · exact hposmid o2 h3
        · exact hpos nd (hside nd (Or.inr h2)) o2 ho2


theorem matchStep_some_elim (i : Instrument) (r : Instrument × Fill)
    (hwf : i.WF) (hstep : i.matchStep = some r) :
    ∃ binit bp bo brest sp so sorest stail,
      i.buy_side.levels = binit ++ [{ price := bp, level := bo :: brest }] ∧
      i.sell_side.levels = { price := sp, level := so :: sorest } :: stail ∧
      sp ≤ bp := by
  obtain ⟨⟨hbp, hbne, hbpr⟩, ⟨hsp, hsne, hspr⟩⟩ := hwf
  rcases List.eq_nil_or_concat i.buy_side.levels with hbe | ⟨binit, blast, hb⟩
  · rw [Instrument.matchStep] at hstep
    rw [show i.buy_side.high = none from by rw [SideTree.high, hbe]; rfl] at hstep
    simp at hstep
  by_cases hsnil : i.sell_side.levels = []
  · rw [Instrument.matchStep] at hstep
    rw [show i.sell_side.low = none from by rw [SideTree.low, hsnil]; rfl] at hstep
    simp at hstep
  obtain ⟨shead, stail, hse⟩ := List.exists_cons_of_ne_nil hsnil
  have hblmem : blast ∈ i.buy_side.levels := by rw [hb]; simp
  have hshmem : shead ∈ i.sell_side.levels := by rw [hse]; simp
  rcases hbl : blast.level with _ | ⟨bo, brest⟩
  · exact absurd hbl (hbne blast hblmem)
  rcases hsl : shead.level with _ | ⟨so, sorest⟩
  · exact absurd hsl (hsne shead hshmem)
  have hb2 : i.buy_side.levels = binit ++ [{ price := blast.price, level := bo :: brest }] := by
    rw [hb, List.concat_eq_append, ← hbl]
  have hs2 : i.sell_side.levels = { price := shead.price, level := so :: sorest } :: stail := by
    rw [hse, ← hsl]
  by_cases hlt : blast.price < shead.price
  · rw [Instrument.matchStep] at hstep
    rw [show i.buy_side.high = some { price := blast.price, level := bo :: brest } from by
      rw [SideTree.high, hb2]; exact List.getLast?_concat _] at hstep
    rw [show i.sell_side.low = some { price := shead.price, level := so :: sorest } from by
      rw [SideTree.low, hs2]; rfl] at hstep
    simp only [hlt, if_true, ite_true] at hstep
    exact absurd hstep (by simp)
  · exact ⟨binit, blast.price, bo, brest, shead.price, so, sorest, stail,
      hb2, hs2, by omega⟩

theorem matchStep_some_spec (i : Instrument) (r : Instrument × Fill)
    (hwf : i.WF) (hstep : i.matchStep = some r) :
    r.1.WF ∧ r.1.loopMeasure < i.loopMeasure ∧
    (i.buy_side.allRemPos → i.sell_side.allRemPos →
      (r.1.buy_side.allRemPos ∧ r.1.sell_side.allRemPos ∧
        r.1.buy_side.totalRemaining + r.1.sell_side.totalRemaining + 1 ≤
          i.buy_side.totalRemaining + i.sell_side.totalRemaining)) := by
  obtain ⟨binit, bp, bo, brest, sp, so, sorest, stail, hb, hs, hcross⟩ :=
    matchStep_some_elim i r hwf hstep
  obtain ⟨hwb, hws⟩ := hwf
  obtain ⟨i', f⟩ := r
  rw [matchStep_eq i binit bp bo brest sp so sorest stail
    (min bo.remainingQuantity so.remainingQuantity) hwb hws hb hs hcross rfl] at hstep
  set q := min bo.remainingQuantity so.remainingQuantity with hqdef
  have hqb : q ≤ bo.remainingQuantity := Nat.min_le_left _ _
  have hqs : q ≤ so.remainingQuantity := Nat.min_le_right _ _
  have hpair := Option.some.inj hstep
  simp only [Prod.mk.injEq] at hpair
  obtain ⟨hi', hf⟩ := hpair
  have hbl' : i'.buy_side.levels =
      if (fillUpd bo q).remainingQuantity = 0 then
        (if brest = [] then binit else binit ++ [{ price := bp, level := brest }])
      else binit ++ [{ price := bp, level := fillUpd bo q :: brest }] := by
    rw [← hi']
  have hsl' : i'.sell_side.levels =
      if (fillUpd so q).remainingQuantity = 0 then
        (if sorest = [] then stail else { price := sp, level := sorest } :: stail)
      else { price := sp, level := fillUpd so q :: sorest } :: stail := by
    rw [← hi']
  have htotb := side_after_totals i.buy_side i'.buy_side binit [] bp bo brest q
    (by simpa using hb) (by rw [hbl']; simp) hqb
  have htots := side_after_totals i.sell_side i'.sell_side [] stail sp so sorest q
    (by simpa using hs) (by rw [hsl']; simp) hqs
  have hwfb := side_after_wf_pos i.buy_side i'.buy_side binit [] bp bo brest q hwb
    (by simpa using hb) (by rw [hbl']; simp)
  have hwfs := side_after_wf_pos i.sell_side i'.sell_side [] stail sp so sorest q hws
    (by simpa using hs) (by rw [hsl']; simp)
  refine ⟨⟨hwfb.1, hwfs.1⟩, ?_, ?_⟩
  · have hq0 : q = 0 →
        (fillUpd bo q).remainingQuantity = 0 ∨ (fillUpd so q).remainingQuantity = 0 := by
      intro h0
      simp only [fillUpd]
      omega
    obtain ⟨hA, hC, hE⟩ := htotb
    obtain ⟨hB, hD, hF⟩ := htots
    simp only [Instrument.loopMeasure]
    by_cases hq : q = 0
    · rcases hq0 hq with h | h
      · have := hE h
        omega
      · have := hF h
        omega
    · omega
  · intro hbpos hspos
    refine ⟨hwfb.2 hbpos, hwfs.2 hspos, ?_⟩
    have hbo1 : 1 ≤ bo.remainingQuantity :=
      hbpos { price := bp, level := bo :: brest } (by rw [hb]; simp) bo (by simp)
    have hso1 : 1 ≤ so.remainingQuantity :=
      hspos { price := sp, level := so :: sorest } (by rw [hs]; simp) so (by simp)
    have hq1 : 1 ≤ q := by omega
    obtain ⟨hA, _, _⟩ := htotb
    obtain ⟨hB, _, _⟩ := htots
    dsimp only
    omega


theorem matchStep_none_uncrossed (i : Instrument) (hwf : i.WF) (hnone : i.matchStep = none) :
    i.uncrossed := by
  obtain ⟨⟨hbp, hbne, hbpr⟩, ⟨hsp, hsne, hspr⟩⟩ := hwf
  rcases List.eq_nil_or_concat i.buy_side.levels with hbe | ⟨binit, blast, hb⟩
  · exact Or.inl hbe
  by_cases hsnil : i.sell_side.levels = []
  · exact Or.inr (Or.inl hsnil)
  obtain ⟨shead, stail, hse⟩ := List.exists_cons_of_ne_nil hsnil
  have hblmem : blast ∈ i.buy_side.levels := by
    rw [hb, List.concat_eq_append]
    simp
  have hshmem : shead ∈ i.sell_side.levels := by
    rw [hse]
    simp
  rcases hbl : blast.level with _ | ⟨bo, brest⟩
  · exact absurd hbl (hbne blast hblmem)
  rcases hsl : shead.level with _ | ⟨so, sorest⟩
  · exact absurd hsl (hsne shead hshmem)
  have hb2 : i.buy_side.levels = binit ++ [{ price := blast.price, level := bo :: brest }] := by
    rw [hb, List.concat_eq_append, ← hbl]
  have hs2 : i.sell_side.levels = { price := shead.price, level := so :: sorest } :: stail := by
    rw [hse, ← hsl]
  by_cases hlt : blast.price < shead.price
  · refine Or.inr (Or.inr ⟨{ price := blast.price, level := bo :: brest },
      { price := shead.price, level := so :: sorest }, ?_, ?_, hlt⟩)
    · rw [SideTree.high, hb2]
      exact List.getLast?_concat _
    · rw [SideTree.low, hs2]
      rfl
  · have heq := matchStep_eq i binit blast.price bo brest shead.price so sorest stail
      (min bo.remainingQuantity so.remainingQuantity) ⟨hbp, hbne, hbpr⟩ ⟨hsp, hsne, hspr⟩
      hb2 hs2 (by omega) rfl
    rw [heq] at hnone
    exact absurd hnone (by simp)

theorem matchLoop_fixpoint : ∀ (fuel : Nat) (i : Instrument), i.WF → i.loopMeasure ≤ fuel →
    (i.matchLoop fuel).1.matchStep = none ∧ (i.matchLoop fuel).1.WF := by
  intro fuel
  induction fuel with
  | zero =>
    intro i hwf hm
    rw [Instrument.matchLoop]
    refine ⟨?_, hwf⟩
    cases hstep : i.matchStep with
    | none => rfl
    | some r =>
      have := (matchStep_some_spec i r hwf hstep).2.1
      omega
  | succ n ih =>
    intro i hwf hm
    rw [Instrument.matchLoop]
    cases hstep : i.matchStep with
    | none =>
      exact ⟨hstep, hwf⟩
    | some r =>
      obtain ⟨i', f⟩ := r
      have hspec := matchStep_some_spec i (i', f) hwf hstep
      have hm' : i'.loopMeasure ≤ n := by
        have := hspec.2.1
        dsimp only at this
        omega
      exact ih i' hspec.1 hm'

theorem mem_insertLevelSorted (ls : List PriceLevelNode) (nd x : PriceLevelNode)
    (hx : x ∈ insertLevelSorted ls nd) : x ∈ ls ∨ x = nd := by
  induction ls with
  | nil =>
    rw [insertLevelSorted] at hx
    exact Or.inr (List.mem_singleton.1 hx)
  | cons l rest ih =>
    rw [insertLevelSorted] at hx
    by_cases h : nd.price < l.price
    · rw [if_pos h] at hx
      rcases List.mem_cons.1 hx with rfl | hx2
      · exact Or.inr rfl
      · exact Or.inl hx2
    · rw [if_neg h] at hx
      rcases List.mem_cons.1 hx with rfl | hx2
      · exact Or.inl (List.mem_cons_self _ _)
      · rcases ih hx2 with h3 | h3
        · exact Or.inl (List.mem_cons_of_mem _ h3)
        · exact Or.inr h3

theorem pairwise_insertLevelSorted (ls : List PriceLevelNode) (nd : PriceLevelNode)
    (hpw : List.Pairwise (fun a c => a.price < c.price) ls)
    (habs : ∀ l ∈ ls, l.price ≠ nd.price) :
    List.Pairwise (fun a c => a.price < c.price) (insertLevelSorted ls nd) := by
  induction ls with
  | nil =>
    rw [insertLevelSorted]
    exact List.pairwise_singleton _ _
  | cons l rest ih =>
    rw [insertLevelSorted]
    obtain ⟨hl, hrest⟩ := List.pairwise_cons.1 hpw
    by_cases h : nd.price < l.price
    · rw [if_pos h]
      refine List.pairwise_cons.2 ⟨?_, hpw⟩
      intro c hc
      rcases List.mem_cons.1 hc with rfl | hc2
      · exact h
      · exact Nat.lt_trans h (hl c hc2)
    · rw [if_neg h]
      have hlnd : l.price < nd.price := by
        have := habs l (List.mem_cons_self _ _)
        omega
      refine List.pairwise_cons.2 ⟨?_, ?_⟩
      · intro c hc
        rcases mem_insertLevelSorted rest nd c hc with h3 | rfl
        · exact hl c h3
        · exact hlnd
      · exact ih hrest (fun l2 h2 => habs l2 (List.mem_cons_of_mem _ h2))

theorem SideTree.insert_WF (b : SideTree) (o : Order) (hwf : b.WF) : (b.insert o).WF := by
  obtain ⟨hpw, hne, hpr⟩ := hwf
  rw [SideTree.insert]
  by_cases hfind : (findLevel b.levels o.price).isSome
  · rw [if_pos hfind]
    have hfp : ∀ l : PriceLevelNode,
        ((fun l => if l.price == o.price then { l with level := l.level ++ [o] } else l) l).price
          = l.price := by
      intro l
      by_cases h : l.price == o.price <;> simp [h]
    refine ⟨?_, ?_, ?_⟩
    · rw [List.pairwise_map]
      refine hpw.imp ?_
      intro a c hac
      rw [hfp a, hfp c]
      exact hac
    · intro nd hnd
      obtain ⟨l, hl, rfl⟩ := List.mem_map.1 hnd
      by_cases h : l.price == o.price <;> simp [h, hne l hl]
    · intro nd hnd o2 ho2
      obtain ⟨l, hl, rfl⟩ := List.mem_map.1 hnd
      by_cases h : l.price == o.price
      · simp only [h, if_true, ite_true] at ho2 ⊢
        rcases List.mem_append.1 ho2 with h2 | h2
        · exact hpr l hl o2 h2
        · rw [List.mem_singleton.1 h2]
          exact (eq_of_beq h).symm
      · simp only [h, if_false, ite_false] at ho2 ⊢
        exact hpr l hl o2 ho2
  · rw [if_neg hfind]
    have habs : ∀ l ∈ b.levels, l.price ≠ o.price := by
      intro l hl
      have hn : findLevel b.levels o.price = none := by
        cases hfl : findLevel b.levels o.price with
        | none => rfl
        | some v => rw [hfl] at hfind; simp at hfind
      have := List.find?_eq_none.1 hn l hl
      simpa using this
    refine ⟨?_, ?_, ?_⟩
    · exact pairwise_insertLevelSorted b.levels _ hpw habs
    · intro nd hnd
      rcases mem_insertLevelSorted b.levels _ nd hnd with h2 | rfl
      · exact hne nd h2
      · simp
    · intro nd hnd o2 ho2
      rcases mem_insertLevelSorted b.levels _ nd hnd with h2 | rfl
      · exact hpr nd h2 o2 ho2
      · rw [List.mem_singleton.1 ho2]


theorem findLevel_map (ls : List PriceLevelNode) (f : PriceLevelNode → PriceLevelNode)
    (hf : ∀ l, (f l).price = l.price) (p : Nat) :
    findLevel (ls.map f) p = (findLevel ls p).map f := by
  induction ls with
  | nil => rfl
  | cons l rest ih =>
    by_cases h : (l.price == p) = true
    · simp only [findLevel, List.map_cons] at ih ⊢
      rw [@List.find?_cons_of_pos _ (fun l => l.price == p) (f l) (List.map f rest)
          (show ((f l).price == p) = true by rw [hf l]; exact h),
        @List.find?_cons_of_pos _ (fun l => l.price == p) l rest h]
      rfl
    · simp only [findLevel, List.map_cons] at ih ⊢
      rw [@List.find?_cons_of_neg _ (fun l => l.price == p) (f l) (List.map f rest)
          (show ¬ ((f l).price == p) = true by rw [hf l]; exact h),
        @List.find?_cons_of_neg _ (fun l => l.price == p) l rest h]
      exact ih

theorem findLevel_insertLevelSorted (ls : List PriceLevelNode) (nd : PriceLevelNode)
    (habs : ∀ l ∈ ls, l.price ≠ nd.price) :
    findLevel (insertLevelSorted ls nd) nd.price = some nd := by
  induction ls with
  | nil =>
    rw [insertLevelSorted, findLevel]
    exact List.find?_cons_of_pos _ (by simp)
  | cons l rest ih =>
    rw [insertLevelSorted]
    by_cases h : nd.price < l.price
    · rw [if_pos h, findLevel]
      exact List.find?_cons_of_pos _ (by simp)
    · rw [if_neg h, findLevel, List.find?_cons_of_neg _
        (by simp [habs l (List.mem_cons_self _ _)])]
      exact ih (fun l2 h2 => habs l2 (List.mem_cons_of_mem _ h2))

/-- C4 (spec L2, FIFO within level), part one: `SideTree::insert` appends
the new order at the back of the queue at its price; earlier arrivals
stay ahead of it. -/
theorem insert_appends_at_tail (b : SideTree) (o : Order) :
    levelOrdersAt (b.insert o) o.price = levelOrdersAt b o.price ++ [o] := by
  rw [SideTree.insert]
  by_cases hfind : (findLevel b.levels o.price).isSome
  · obtain ⟨nd, hnd⟩ := Option.isSome_iff_exists.1 hfind
    have hnd' : List.find? (fun l => l.price == o.price) b.levels = some nd := hnd
    have hprice : (nd.price == o.price) = true :=
      @List.find?_some _ (fun l => l.price == o.price) nd b.levels hnd'
    have hmap := findLevel_map b.levels
      (fun l => if l.price == o.price then { l with level := l.level ++ [o] } else l)
      (fun l => by by_cases h : (l.price == o.price) = true <;> simp [h]) o.price
    rw [if_pos hfind]
    simp only [levelOrdersAt]
    rw [hmap, hnd]
    dsimp only [Option.map]
    rw [if_pos hprice]
  · have hnone : findLevel b.levels o.price = none := by
      cases hfl : findLevel b.levels o.price with
      | none => rfl
      | some v => rw [hfl] at hfind; simp at hfind
    have habs : ∀ l ∈ b.levels, l.price ≠ o.price := by
      intro l hl
      have := List.find?_eq_none.1 hnone l hl
      simpa using this
    have hins := findLevel_insertLevelSorted b.levels { price := o.price, level := [o] } habs
    rw [if_neg hfind]
    simp [levelOrdersAt, hins, hnone]

/-- C4 (spec L2, FIFO within level), part two: one iteration of the
matching loop consumes only the head of the best buy level; the fill's
buyer is the head order, and every order behind it in the queue is left
exactly as it was (the head is dropped when fully filled, kept with
updated counters otherwise). -/
theorem matchStep_consumes_head (i : Instrument) (r : Instrument × Fill)
    (A : Order) (rest : List Order) (lv : PriceLevelNode)
    (hwf : i.WF) (hlv : i.buy_side.high = some lv) (hlev : lv.level = A :: rest)
    (hstep : i.matchStep = some r) :
    r.2.buyerId = A.clientId ∧
    levelOrdersAt r.1.buy_side lv.price =
      (if (fillUpd A r.2.qty).remainingQuantity = 0 then rest
       else fillUpd A r.2.qty :: rest) := by
  obtain ⟨binit, bp, bo, brest, sp, so, sorest, stail, hb, hs, hcross⟩ :=
    matchStep_some_elim i r hwf hstep
  have hlv2 : lv = { price := bp, level := bo :: brest } := by
    rw [SideTree.high, hb] at hlv
    rw [List.getLast?_concat] at hlv
    exact (Option.some.inj hlv).symm
  have hA : A = bo := by
    have := hlev
    rw [hlv2] at this
    exact (List.cons.inj this).1.symm
  have hrest : rest = brest := by
    have := hlev
    rw [hlv2] at this
    exact (List.cons.inj this).2.symm
  obtain ⟨hwb, hws⟩ := hwf
  obtain ⟨i', f⟩ := r
  rw [matchStep_eq i binit bp bo brest sp so sorest stail
    (min bo.remainingQuantity so.remainingQuantity) hwb hws hb hs hcross rfl] at hstep
  set q := min bo.remainingQuantity so.remainingQuantity with hqdef
  have hpair := Option.some.inj hstep
  simp only [Prod.mk.injEq] at hpair
  obtain ⟨hi', hf⟩ := hpair
  have hbinit : ∀ l ∈ binit, l.price ≠ bp := by
    obtain ⟨hbp, _, _⟩ := hwb
    rw [hb] at hbp
    have h2 := (List.pairwise_append.1 hbp).2.2
    intro l hl
    exact Nat.ne_of_lt
      (h2 l hl { price := bp, level := bo :: brest } (List.mem_singleton.2 rfl))
  have hbl' : i'.buy_side.levels =
      if (fillUpd bo q).remainingQuantity = 0 then
        (if brest = [] then binit else binit ++ [{ price := bp, level := brest }])
      else binit ++ [{ price := bp, level := fillUpd bo q :: brest }] := by
    rw [← hi']
  have hqty : f.qty = q := by rw [← hf]
  have hbuyer : f.buyerId = bo.clientId := by rw [← hf]
  rw [hA, hrest, hlv2]
  refine ⟨hbuyer, ?_⟩
  dsimp only
  rw [hqty, levelOrdersAt]
  have hfindnone : findLevel binit bp = none :=
    List.find?_eq_none.2 (fun l hl => by simp [hbinit l hl])
  by_cases hz : (fillUpd bo q).remainingQuantity = 0
  · rw [if_pos hz] at hbl' ⊢
    by_cases hbrest : brest = []
    · rw [if_pos hbrest] at hbl'
      rw [hbl', hfindnone, hbrest]
    · rw [if_neg hbrest] at hbl'
      rw [hbl',
        show findLevel (binit ++ [{ price := bp, level := brest }]) bp =
          some { price := bp, level := brest } from findLevel_concat_self binit _ hbinit]
  · rw [if_neg hz] at hbl' ⊢
    rw [hbl',
      show findLevel (binit ++ [{ price := bp, level := fillUpd bo q :: brest }]) bp =
        some { price := bp, level := fillUpd bo q :: brest } from
      findLevel_concat_self binit _ hbinit]

/-- C4 (spec L2, FIFO within level), part three: the mirror statement on
the sell side — one iteration of the matching loop consumes only the
head of the best sell level; the fill's seller is the head order, and
every order behind it in the queue is left exactly as it was (the head
is dropped when fully filled, kept with updated counters otherwise). -/
theorem matchStep_consumes_head_sell (i : Instrument) (r : Instrument × Fill)
    (A : Order) (rest : List Order) (lv : PriceLevelNode)
    (hwf : i.WF) (hlv : i.sell_side.low = some lv) (hlev : lv.level = A :: rest)
    (hstep : i.matchStep = some r) :
    r.2.sellerId = A.clientId ∧
    levelOrdersAt r.1.sell_side lv.price =
      (if (fillUpd A r.2.qty).remainingQuantity = 0 then rest
       else fillUpd A r.2.qty :: rest) := by
  obtain ⟨binit, bp, bo, brest, sp, so, sorest, stail, hb, hs, hcross⟩ :=
    matchStep_some_elim i r hwf hstep
  have hlv2 : lv = { price := sp, level := so :: sorest } := by
    rw [SideTree.low, hs] at hlv
    exact (Option.some.inj hlv).symm
  have hA : A = so := by
    have := hlev
    rw [hlv2] at this
    exact (List.cons.inj this).1.symm
  have hrest : rest = sorest := by
    have := hlev
    rw [hlv2] at this
    exact (List.cons.inj this).2.symm
  obtain ⟨hwb, hws⟩ := hwf
  obtain ⟨i', f⟩ := r
  rw [matchStep_eq i binit bp bo brest sp so sorest stail
    (min bo.remainingQuantity so.remainingQuantity) hwb hws hb hs hcross rfl] at hstep
  set q := min bo.remainingQuantity so.remainingQuantity with hqdef
  have hpair := Option.some.inj hstep
  simp only [Prod.mk.injEq] at hpair
  obtain ⟨hi', hf⟩ := hpair
  have hstail : ∀ l ∈ stail, l.price ≠ sp := by
    obtain ⟨hsp, _, _⟩ := hws
    rw [hs] at hsp
    intro l hl
    exact (Nat.ne_of_lt ((List.pairwise_cons.1 hsp).1 l hl)).symm
  have hsl' : i'.sell_side.levels =
      if (fillUpd so q).remainingQuantity = 0 then
        (if sorest = [] then stail else { price := sp, level := sorest } :: stail)
      else { price := sp, level := fillUpd so q :: sorest } :: stail := by
    rw [← hi']
  have hqty : f.qty = q := by rw [← hf]
  have hseller : f.sellerId = so.clientId := by rw [← hf]
  rw [hA, hrest, hlv2]
  refine ⟨hseller, ?_⟩
  dsimp only
  rw [hqty, levelOrdersAt]
  have hfindnone : findLevel stail sp = none :=
    List.find?_eq_none.2 (fun l hl => by simp [hstail l hl])
  by_cases hz : (fillUpd so q).remainingQuantity = 0
  · rw [if_pos hz] at hsl' ⊢
    by_cases hsrest : sorest = []
    · rw [if_pos hsrest] at hsl'
      rw [hsl', hfindnone, hsrest]
    · rw [if_neg hsrest] at hsl'
      rw [hsl',
        show findLevel ({ price := sp, level := sorest } :: stail) sp =
          some { price := sp, level := sorest } from findLevel_cons_self _ stail]
  · rw [if_neg hz] at hsl' ⊢
    rw [hsl',
      show findLevel ({ price := sp, level := fillUpd so q :: sorest } :: stail) sp =
        some { price := sp, level := fillUpd so q :: sorest } from
      findLevel_cons_self _ stail]


/-- C1: for every book state (well formed, books uncrossed) and every
limit order, after `Instrument::placeOrder` returns the books are again
uncrossed — the buy side is empty, or the sell side is empty, or the
highest buy level price is strictly below the lowest sell level
price. -/
theorem placeOrder_uncrossed (i : Instrument) (o : Order)
    (hwf : i.WF) (_hun : i.uncrossed) (_hty : o.type = OrderType.Limit) :
    (i.placeOrder o).1.uncrossed := by
  rw [Instrument.placeOrder]
  have hwf1 : (if o.side = Side.Buy then { i with buy_side := i.buy_side.insert o }
      else { i with sell_side := i.sell_side.insert o }).WF := by
    by_cases h : o.side = Side.Buy
    · rw [if_pos h]
      exact ⟨SideTree.insert_WF _ _ hwf.1, hwf.2⟩
    · rw [if_neg h]
      exact ⟨hwf.1, SideTree.insert_WF _ _ hwf.2⟩
  have hfix := matchLoop_fixpoint _ _ hwf1 (Nat.le_refl _)
  exact matchStep_none_uncrossed _ hfix.2 hfix.1

/-- C1 witness: the S1 book (one resting BUY 10 @ 100) is well formed
and uncrossed, and placing the limit order SELL 4 @ 95 leaves the books
uncrossed. -/
theorem placeOrder_uncrossed_witness :
    inst1.WF ∧ inst1.uncrossed ∧ s3Sell.type = OrderType.Limit ∧
      (inst1.placeOrder s3Sell).1.uncrossed := by
  have h1 : inst1.WF := by unfold Instrument.WF SideTree.WF; decide
  have h2 : inst1.uncrossed := Or.inr (Or.inl rfl)
  exact ⟨h1, h2, rfl, placeOrder_uncrossed inst1 s3Sell h1 h2 rfl⟩

/-- C4: FIFO within a price level, on both sides.  First,
`SideTree::insert` appends each arriving order at the back of its price
level's queue, so queue order is arrival order (both sides insert
through the same code path).  Second and third, a fill consumes only the
queue's head of the best level on either side: the fill's buyer
(respectively seller) is the head order A of the best buy (respectively
sell) level, and afterwards that level's queue is exactly the old tail
(head dropped when fully filled) or the counter-updated head followed by
the unchanged tail — no quantity of any later-arrived order B at the
same price on the same side is filled while A rests, and the head is
always the earliest arrival still resting. -/
theorem fifo_within_level :
    (∀ (b : SideTree) (o : Order),
      levelOrdersAt (b.insert o) o.price = levelOrdersAt b o.price ++ [o]) ∧
    (∀ (i : Instrument) (r : Instrument × Fill) (A : Order) (rest : List Order)
        (lv : PriceLevelNode),
      i.WF → i.buy_side.high = some lv → lv.level = A :: rest → i.matchStep = some r →
      r.2.buyerId = A.clientId ∧
      levelOrdersAt r.1.buy_side lv.price =
        (if (fillUpd A r.2.qty).remainingQuantity = 0 then rest
         else fillUpd A r.2.qty :: rest)) ∧
    (∀ (i : Instrument) (r : Instrument × Fill) (A : Order) (rest : List Order)
        (lv : PriceLevelNode),
      i.WF → i.sell_side.low = some lv → lv.level = A :: rest → i.matchStep = some r →
      r.2.sellerId = A.clientId ∧
      levelOrdersAt r.1.sell_side lv.price =
        (if (fillUpd A r.2.qty).remainingQuantity = 0 then rest
         else fillUpd A r.2.qty :: rest)) :=
  ⟨insert_appends_at_tail, matchStep_consumes_head, matchStep_consumes_head_sell⟩

/-- C4 witness: appending `ordB` behind the resting `ordA`, and one fill
against `instCrossed` (SELL 3 @ 95 against the level [ordA, ordB] at
100) consumes `ordA` first on the buy side and the sell head `ordS` on
the sell side, leaving `ordB` untouched. -/
theorem fifo_within_level_witness :
    (levelOrdersAt (bookA.insert ordB) ordB.price =
      levelOrdersAt bookA ordB.price ++ [ordB]) ∧
    (instCrossed.WF ∧
      instCrossed.buy_side.high = some { price := 100, level := [ordA, ordB] } ∧
      instCrossed.sell_side.low = some { price := 95, level := [ordS] } ∧
      instCrossed.matchStep = some stepRes ∧
      stepRes.2.buyerId = ordA.clientId ∧
      levelOrdersAt stepRes.1.buy_side 100 =
        (if (fillUpd ordA stepRes.2.qty).remainingQuantity = 0 then [ordB]
         else fillUpd ordA stepRes.2.qty :: [ordB]) ∧
      stepRes.2.sellerId = ordS.clientId ∧
      levelOrdersAt stepRes.1.sell_side 95 =
        (if (fillUpd ordS stepRes.2.qty).remainingQuantity = 0 then []
         else [fillUpd ordS stepRes.2.qty])) := by
  have hwf : instCrossed.WF := by unfold Instrument.WF SideTree.WF; decide
  have hhigh : instCrossed.buy_side.high = some { price := 100, level := [ordA, ordB] } := by
    decide
  have hlow : instCrossed.sell_side.low = some { price := 95, level := [ordS] } := by
    decide
  have hstep : instCrossed.matchStep = some stepRes := by decide
  have h2 := fifo_within_level.2.1 instCrossed stepRes ordA [ordB]
    { price := 100, level := [ordA, ordB] } hwf hhigh rfl hstep
  have h3 := fifo_within_level.2.2 instCrossed stepRes ordS []
    { price := 95, level := [ordS] } hwf hlow rfl hstep
  exact ⟨fifo_within_level.1 bookA ordB, hwf, hhigh, hlow, hstep, h2.1, h2.2, h3.1, h3.2⟩

/-- C10: for every well-formed book state in which every resting order
has remaining quantity at least 1, each fill iteration of
`Instrument::execute_limit_if_match` strictly decreases the total
remaining quantity resting in the book, and the matching loop
terminates: the state it returns admits no further fill. -/
theorem matching_loop_terminates (i : Instrument)
    (hwf : i.WF) (hbpos : i.buy_side.allRemPos) (hspos : i.sell_side.allRemPos) :
    (∀ r, i.matchStep = some r →
        r.1.buy_side.totalRemaining + r.1.sell_side.totalRemaining <
          i.buy_side.totalRemaining + i.sell_side.totalRemaining) ∧
    (i.execute_limit_if_match).1.matchStep = none := by
  constructor
  · intro r hr
    have h := (matchStep_some_spec i r hwf hr).2.2 hbpos hspos
    omega
  · exact (matchLoop_fixpoint i.loopMeasure i hwf (Nat.le_refl _)).1

/-- C10 witness: on the crossed book `instCrossed` (all remaining
quantities positive) the matching loop runs to a state with no further
fill. -/
theorem matching_loop_terminates_witness :
    instCrossed.WF ∧ instCrossed.buy_side.allRemPos ∧ instCrossed.sell_side.allRemPos ∧
      (instCrossed.execute_limit_if_match).1.matchStep = none := by
  have h1 : instCrossed.WF := by unfold Instrument.WF SideTree.WF; decide
  have h2 : instCrossed.buy_side.allRemPos := by unfold SideTree.allRemPos; decide
  have h3 : instCrossed.sell_side.allRemPos := by unfold SideTree.allRemPos; decide
  exact ⟨h1, h2, h3, (matching_loop_terminates instCrossed h1 h2 h3).2⟩


theorem eraseFirstMatch_no_match (t : Order) (l : List Order)
    (h : ∀ x ∈ l, orderMatches t x = false) : eraseFirstMatch t l = (l, false) := by
  induction l with
  | nil => rfl
  | cons x xs ih =>
    rw [eraseFirstMatch, h x (List.mem_cons_self _ _)]
    simp only [Bool.false_eq_true, if_false, ite_false]
    rw [ih (fun y hy => h y (List.mem_cons_of_mem _ hy))]

/-- C2 counterexample: with a single resting BUY 10 @ 100, placing SELL
4 @ 95 executes one fill of quantity 4 at price 95 — the sell level's
price, read unconditionally by the matching loop — not at the resting
order's price 100, and the last trade is (95, 4).  The claimed fill
price 100 and last trade (100, 4) are refuted. -/
theorem s3_fill_price_counterexample :
    ¬ ((inst1.placeOrder s3Sell).2.map (fun f => (f.price, f.qty)) = [(100, 4)] ∧
       (inst1.placeOrder s3Sell).1.last_trade_price = 100 ∧
       (inst1.placeOrder s3Sell).1.last_trade_size = 4) ∧
    (inst1.placeOrder s3Sell).2.map (fun f => (f.price, f.qty)) = [(95, 4)] := by
  decide

/-- C2 amended: with a single resting BUY limit order of quantity 10 at
price 100 and an otherwise empty book, placing SELL 4 @ 95 produces
exactly one fill of quantity 4 at price 95 (the sell level's price); the
buy order remains resting with remaining = 6 (filled = 4), the sell side
is empty, and the instrument's last trade is (price 95, size 4). -/
theorem s3_partial_cross_amended :
    (inst1.placeOrder s3Sell).2 =
      [{ price := 95, qty := 4, buyerId := s1Buy.clientId, sellerId := s3Sell.clientId }] ∧
    (inst1.placeOrder s3Sell).1.buy_side.levels =
      [{ price := 100,
         level := [{ s1Buy with remainingQuantity := 6, filledQuantity := 4 }] }] ∧
    (inst1.placeOrder s3Sell).1.sell_side.levels = [] ∧
    (inst1.placeOrder s3Sell).1.last_trade_price = 95 ∧
    (inst1.placeOrder s3Sell).1.last_trade_size = 4 := by
  decide

/-- C3 counterexample: on the first trade (price 95, quantity 4) of a
fresh instrument, the per-fill statistics update leaves `low` at 0 — it
folds the fill price with `min` against the zero initialiser instead of
seeding `low` on the first trade — and never touches `volume_today` or
`vwap_numerator`.  The claimed low = price, volume accumulation and
VWAP-numerator accumulation are refuted. -/
theorem update_stats_counterexample :
    ¬ ((inst0.fillStatsUpdate 95 4).low = 95 ∧
       (inst0.fillStatsUpdate 95 4).volume_today = inst0.volume_today + 4 ∧
       (inst0.fillStatsUpdate 95 4).vwap_numerator = inst0.vwap_numerator + 95 * 4) ∧
    (inst0.fillStatsUpdate 95 4).low = 0 ∧
    (inst0.fillStatsUpdate 95 4).volume_today = 0 ∧
    (inst0.fillStatsUpdate 95 4).vwap_numerator = 0 := by
  decide

/-- C3 amended: for every fill with price p and quantity q, the per-fill
market-statistics update (updatePrices plus the last-trade-size
assignment) sets last_trade_price to p and last_trade_size to q, sets
high to max(high, p) and low to min(low, p) (low is initialised to 0, so
it is never seeded by the first trade), sets open to p iff open == 0,
sets close to p, and leaves volume_today and vwap_numerator
unchanged. -/
theorem update_stats_amended (i : Instrument) (p q : Nat) :
    (i.fillStatsUpdate p q).last_trade_price = p ∧
    (i.fillStatsUpdate p q).last_trade_size = q ∧
    (i.fillStatsUpdate p q).high = max i.high p ∧
    (i.fillStatsUpdate p q).low = min i.low p ∧
    (i.fillStatsUpdate p q).open_ = (if i.open_ = 0 then p else i.open_) ∧
    (i.fillStatsUpdate p q).close = p ∧
    (i.fillStatsUpdate p q).volume_today = i.volume_today ∧
    (i.fillStatsUpdate p q).vwap_numerator = i.vwap_numerator :=
  ⟨rfl, rfl, rfl, rfl, rfl, rfl, rfl, rfl⟩

/-- C6 counterexample: the value SideTree::remove returns does not
indicate whether a removal occurred.  Cancelling the non-resting `ordB`
on a book where only `ordA` rests at price 100 removes nothing yet
returns the level pointer (some 100); cancelling the resting `ordB` on
the two-order book returns the same value after actually removing one
order; and a null return also arises from a successful removal that
empties its level. -/
theorem cancel_return_counterexample :
    (bookA.remove ordB).1 = some 100 ∧ (bookA.remove ordB).2 = bookA ∧
    (bookAB.remove ordB).1 = some 100 ∧
    (bookAB.remove ordB).2.totalOrders = 1 ∧ bookAB.totalOrders = 2 ∧
    (bookA.remove ordA).1 = none := by
  decide

/-- C6 amended: for every side book and every order not resting in it
(no queued order matches its identity), SideTree::remove mutates
nothing: the book — every level's order list, the order counter, the
ordered price view and hence the cached extrema — is returned unchanged.
Its return value is the level pointer at the order's price (null exactly
when no level exists there) and does not report whether a removal
occurred. -/
theorem cancel_nonresting_no_mutation (b : SideTree) (o : Order)
    (hnr : ∀ nd ∈ b.levels, ∀ x ∈ nd.level, orderMatches o x = false) :
    (b.remove o).2 = b ∧
    (b.remove o).1 = (findLevel b.levels o.price).map (fun nd => nd.price) := by
  rw [SideTree.remove]
  cases hfl : findLevel b.levels o.price with
  | none => exact ⟨rfl, rfl⟩
  | some nd =>
    have hmem : nd ∈ b.levels := by
      have hnd' : List.find? (fun l => l.price == o.price) b.levels = some nd := hfl
      exact List.mem_of_find?_eq_some hnd'
    dsimp only
    rw [eraseFirstMatch_no_match o nd.level (hnr nd hmem)]
    exact ⟨rfl, rfl⟩

/-- C6 amended witness: cancelling `ordB`, which is not resting in
`bookA`, changes nothing and returns the level pointer at price 100. -/
theorem cancel_nonresting_no_mutation_witness :
    (∀ nd ∈ bookA.levels, ∀ x ∈ nd.level, orderMatches ordB x = false) ∧
    (bookA.remove ordB).2 = bookA ∧
    (bookA.remove ordB).1 = (findLevel bookA.levels ordB.price).map (fun nd => nd.price) := by
  have h : ∀ nd ∈ bookA.levels, ∀ x ∈ nd.level, orderMatches ordB x = false := by decide
  exact ⟨h, cancel_nonresting_no_mutation bookA ordB h⟩

end Tradestack


namespace AVL

theorem hval_nil : hval .nil = 0 := rfl

theorem hval_node (k h : Nat) (l r : ATree) : hval (.node k h l r) = h := rfl

theorem valid_node (k h : Nat) (l r : ATree) :
    valid (.node k h l r) = true ↔
      valid l = true ∧ valid r = true ∧ h = 1 + max (hval l) (hval r) ∧
      hval l ≤ hval r + 1 ∧ hval r ≤ hval l + 1 := by
  simp [valid, Bool.and_eq_true, decide_eq_true_eq, and_assoc]

theorem rebalance_valid_id (t : ATree) (hv : valid t = true) : rebalance t = t := by
  cases t with
  | nil => rfl
  | node k h l r =>
    rw [valid_node] at hv
    obtain ⟨_, _, hh, hd1, hd2⟩ := hv
    rw [rebalance]
    rw [if_neg (by omega), if_neg (by omega), hh]

theorem rebalance_spec (k h0 : Nat) (l r : ATree)
    (hvl : valid l = true) (hvr : valid r = true)
    (hd1 : hval l ≤ hval r + 2) (hd2 : hval r ≤ hval l + 2) :
    valid (rebalance (.node k h0 l r)) = true ∧
    max (hval l) (hval r) ≤ hval (rebalance (.node k h0 l r)) ∧
    hval (rebalance (.node k h0 l r)) ≤ 1 + max (hval l) (hval r) ∧
    (hval l ≤ hval r + 1 → hval r ≤ hval l + 1 →
      hval (rebalance (.node k h0 l r)) = 1 + max (hval l) (hval r)) := by
  rw [rebalance]
  by_cases hb1 : (1 : Int) < (hval l : Int) - (hval r : Int)
  · rw [if_pos hb1]
    have hle : hval l = hval r + 2 := by omega
    cases l with
    | nil => exfalso; rw [show hval ATree.nil = 0 from rfl] at hle; omega
    | node lk lh ll lr =>
      rw [valid_node] at hvl
      obtain ⟨hvll, hvlr, hlh, hld1, hld2⟩ := hvl
      rw [show hval (ATree.node lk lh ll lr) = lh from rfl] at hle hd1 hd2 hb1
      by_cases hbl : bf (.node lk lh ll lr) < 0
      · rw [if_pos hbl]
        rw [show bf (ATree.node lk lh ll lr) = (hval ll : Int) - (hval lr : Int) from rfl] at hbl
        cases lr with
        | nil => exfalso; rw [show hval ATree.nil = 0 from rfl] at hbl; omega
        | node mk mh ml mr =>
          rw [valid_node] at hvlr
          obtain ⟨hvml, hvmr, hmh, hmd1, hmd2⟩ := hvlr
          rw [show hval (ATree.node mk mh ml mr) = mh from rfl] at hbl hld1 hld2 hlh
          rw [rotate_left, rotate_right]
          simp only [valid_node, hval_node, hval_nil]
          repeat' apply And.intro
          all_goals first | assumption | trivial | omega | (intros; trivial) | (intros; omega)
      · rw [if_neg hbl]
        rw [show bf (ATree.node lk lh ll lr) = (hval ll : Int) - (hval lr : Int) from rfl] at hbl
        rw [rotate_right]
        simp only [valid_node, hval_node, hval_nil]
        repeat' apply And.intro
        all_goals first | assumption | trivial | omega | (intros; trivial) | (intros; omega)
  · rw [if_neg hb1]
    by_cases hb2 : (hval l : Int) - (hval r : Int) < -1
    · rw [if_pos hb2]
      have hle : hval r = hval l + 2 := by omega
      cases r with
      | nil => exfalso; rw [show hval ATree.nil = 0 from rfl] at hle; omega
      | node rk rh rl rr =>
        rw [valid_node] at hvr
        obtain ⟨hvrl, hvrr, hrh, hrd1, hrd2⟩ := hvr
        rw [show hval (ATree.node rk rh rl rr) = rh from rfl] at hle hd1 hd2 hb1 hb2
        by_cases hbr : 0 < bf (.node rk rh rl rr)
        · rw [if_pos hbr]
          rw [show bf (ATree.node rk rh rl rr) = (hval rl : Int) - (hval rr : Int) from rfl] at hbr
          cases rl with
          | nil => exfalso; rw [show hval ATree.nil = 0 from rfl] at hbr; omega
          | node mk mh ml mr =>
            rw [valid_node] at hvrl
            obtain ⟨hvml, hvmr, hmh, hmd1, hmd2⟩ := hvrl
            rw [show hval (ATree.node mk mh ml mr) = mh from rfl] at hbr hrd1 hrd2 hrh
            rw [rotate_right, rotate_left]
            simp only [valid_node, hval_node, hval_nil]
            repeat' apply And.intro
            all_goals first | assumption | trivial | omega | (intros; trivial) | (intros; omega)
        · rw [if_neg hbr]
          rw [show bf (ATree.node rk rh rl rr) = (hval rl : Int) - (hval rr : Int) from rfl] at hbr
          rw [rotate_left]
          simp only [valid_node, hval_node, hval_nil]
          repeat' apply And.intro
          all_goals first | assumption | trivial | omega | (intros; trivial) | (intros; omega)
    · rw [if_neg hb2]
      simp only [valid_node, hval_node, hval_nil]
      repeat' apply And.intro
      all_goals first | assumption | trivial | omega | (intros; trivial) | (intros; omega)



theorem insertT_spec (t : ATree) (k : Nat) (hv : valid t = true) :
    valid (insertT t k).1 = true ∧ hval t ≤ hval (insertT t k).1 ∧
      hval (insertT t k).1 ≤ hval t + 1 := by
  induction t with
  | nil =>
    refine ⟨?_, by simp [insertT, hval_nil, hval_node], by simp [insertT, hval_nil, hval_node]⟩
    rw [insertT]
    dsimp only
    rw [valid_node]
    exact ⟨rfl, rfl, by simp [hval_nil], by simp [hval_nil], by simp [hval_nil]⟩
  | node key h l r ihl ihr =>
    rw [valid_node] at hv
    obtain ⟨hvl, hvr, hh, hd1, hd2⟩ := hv
    rw [insertT]
    by_cases hk : k < key
    · rw [if_pos hk]
      dsimp only
      obtain ⟨hvL, hL1, hL2⟩ := ihl hvl
      obtain ⟨hsv, hslo, hshi, hseq⟩ :=
        rebalance_spec key h (insertT l k).1 r hvL hvr (by omega) (by omega)
      refine ⟨hsv, ?_, ?_⟩ <;>
      · rw [hval_node]
        by_cases hc1 : hval (insertT l k).1 ≤ hval r + 1
        · have := hseq hc1 (by omega)
          omega
        · omega
    · rw [if_neg hk]
      by_cases hk2 : key < k
      · rw [if_pos hk2]
        dsimp only
        obtain ⟨hvR, hR1, hR2⟩ := ihr hvr
        obtain ⟨hsv, hslo, hshi, hseq⟩ :=
          rebalance_spec key h l (insertT r k).1 hvl hvR (by omega) (by omega)
        refine ⟨hsv, ?_, ?_⟩ <;>
        · rw [hval_node]
          by_cases hc1 : hval (insertT r k).1 ≤ hval l + 1
          · have := hseq (by omega) hc1
            omega
          · omega
      · rw [if_neg hk2]
        dsimp only
        exact ⟨by rw [valid_node]; exact ⟨hvl, hvr, hh, hd1, hd2⟩, le_refl _, by omega⟩

theorem eraseT_not_found (t : ATree) (k : Nat) (h2 : (eraseT t k).2 = false) :
    (eraseT t k).1 = t := by
  induction t with
  | nil => rw [eraseT]
  | node key h l r ihl ihr =>
    rw [eraseT] at h2 ⊢
    by_cases hk : k < key
    · rw [if_pos hk] at h2 ⊢
      dsimp only at h2 ⊢
      by_cases hrem : (eraseT l k).2 = true
      · rw [if_pos hrem] at h2
        exact absurd h2 (by simp)
      · rw [if_neg hrem] at h2 ⊢
        have hf : (eraseT l k).2 = false := by
          cases hb : (eraseT l k).2
          · rfl
          · exact absurd hb hrem
        dsimp only
        rw [ihl hf]
    · rw [if_neg hk] at h2 ⊢
      by_cases hk2 : key < k
      · rw [if_pos hk2] at h2 ⊢
        dsimp only at h2 ⊢
        by_cases hrem : (eraseT r k).2 = true
        · rw [if_pos hrem] at h2
          exact absurd h2 (by simp)
        · rw [if_neg hrem] at h2 ⊢
          have hf : (eraseT r k).2 = false := by
            cases hb : (eraseT r k).2
            · rfl
            · exact absurd hb hrem
          dsimp only
          rw [ihr hf]
      · rw [if_neg hk2] at h2
        exact absurd h2 (by simp)

theorem erase_spec_aux (n : Nat) : ∀ t : ATree, sizeOf t ≤ n → valid t = true →
    (valid (erase_node t) = true ∧ hval (erase_node t) ≤ hval t ∧
      hval t ≤ hval (erase_node t) + 1) ∧
    (∀ k, valid (eraseT t k).1 = true ∧ hval (eraseT t k).1 ≤ hval t ∧
      hval t ≤ hval (eraseT t k).1 + 1) := by
  induction n with
  | zero =>
    intro t ht _
    cases t with
    | nil => rw [ATree.nil.sizeOf_spec] at ht; omega
    | node key h l r => rw [ATree.node.sizeOf_spec] at ht; omega
  | succ n ih =>
    intro t ht hv
    cases t with
    | nil =>
      refine ⟨?_, fun k => ?_⟩
      · rw [erase_node.eq_def]
        dsimp only
        exact ⟨rfl, le_refl _, by omega⟩
      · rw [eraseT]
        dsimp only
        exact ⟨rfl, le_refl _, by omega⟩
    | node key h l r =>
      rw [ATree.node.sizeOf_spec] at ht
      rw [valid_node] at hv
      obtain ⟨hvl, hvr, hh, hd1, hd2⟩ := hv
      have IHl := ih l (by omega) hvl
      have IHr := ih r (by omega) hvr
      have hen : valid (erase_node (.node key h l r)) = true ∧
          hval (erase_node (.node key h l r)) ≤ hval (.node key h l r) ∧
          hval (.node key h l r) ≤ hval (erase_node (.node key h l r)) + 1 := by
        rw [erase_node.eq_def]
        dsimp only
        cases l with
        | nil =>
          dsimp only
          rw [rebalance_valid_id r hvr, hval_node]
          rw [hval_nil] at hh
          exact ⟨hvr, by omega, by omega⟩
        | node lk lh ll lr =>
          cases r with
          | nil =>
            dsimp only
            rw [rebalance_valid_id _ hvl, hval_node]
            rw [hval_nil] at hh
            refine ⟨hvl, ?_, ?_⟩ <;>
            · simp only [hval_node, hval_nil] at hh hd1 hd2 ⊢
              omega
          | node rk rh rl rr =>
            dsimp only
            obtain ⟨hvE, hE1, hE2⟩ := IHr.2 (minKey (.node rk rh rl rr))
            simp only [hval_node] at hd1 hd2 hh hE1 hE2
            obtain ⟨hsv, hslo, hshi, hseq⟩ :=
              rebalance_spec (minKey (.node rk rh rl rr)) h (.node lk lh ll lr)
                (eraseT (.node rk rh rl rr) (minKey (.node rk rh rl rr))).1 hvl hvE
                (by simp only [hval_node]; omega) (by simp only [hval_node]; omega)
            simp only [hval_node] at hslo hshi hseq
            refine ⟨hsv, ?_, ?_⟩ <;>
            · simp only [hval_node]
              by_cases hc1 :
                  hval (eraseT (.node rk rh rl rr) (minKey (.node rk rh rl rr))).1 ≤ lh + 1
              · by_cases hc2 :
                    lh ≤ hval (eraseT (.node rk rh rl rr) (minKey (.node rk rh rl rr))).1 + 1
                · have := hseq hc2 hc1
                  omega
                · omega
              · omega
      refine ⟨hen, ?_⟩
      intro k
      rw [eraseT]
      by_cases hk : k < key
      · rw [if_pos hk]
        dsimp only
        obtain ⟨hvL, hL1, hL2⟩ := IHl.2 k
        by_cases hrem : (eraseT l k).2 = true
        · rw [if_pos hrem]
          dsimp only
          obtain ⟨hsv, hslo, hshi, hseq⟩ :=
            rebalance_spec key h (eraseT l k).1 r hvL hvr (by omega) (by omega)
          refine ⟨hsv, ?_, ?_⟩ <;>
          · rw [hval_node]
            by_cases hc1 : hval (eraseT l k).1 ≤ hval r + 1
            · by_cases hc2 : hval r ≤ hval (eraseT l k).1 + 1
              · have := hseq hc1 hc2
                omega
              · omega
            · omega
        · rw [if_neg hrem]
          dsimp only
          have hf : (eraseT l k).2 = false := by
            cases hb : (eraseT l k).2
            · rfl
            · exact absurd hb hrem
          rw [eraseT_not_found l k hf]
          exact ⟨by rw [valid_node]; exact ⟨hvl, hvr, hh, hd1, hd2⟩, le_refl _, by omega⟩
      · rw [if_neg hk]
        by_cases hk2 : key < k
        · rw [if_pos hk2]
          dsimp only
          obtain ⟨hvR, hR1, hR2⟩ := IHr.2 k
          by_cases hrem : (eraseT r k).2 = true
          · rw [if_pos hrem]
            dsimp only
            obtain ⟨hsv, hslo, hshi, hseq⟩ :=
              rebalance_spec key h l (eraseT r k).1 hvl hvR (by omega) (by omega)
            refine ⟨hsv, ?_, ?_⟩ <;>
            · rw [hval_node]
              by_cases hc1 : hval (eraseT r k).1 ≤ hval l + 1
              · by_cases hc2 : hval l ≤ hval (eraseT r k).1 + 1
                · have := hseq hc2 hc1
                  omega
                · omega
              · omega
          · rw [if_neg hrem]
            dsimp only
            have hf : (eraseT r k).2 = false := by
              cases hb : (eraseT r k).2
              · rfl
              · exact absurd hb hrem
            rw [eraseT_not_found r k hf]
            exact ⟨by rw [valid_node]; exact ⟨hvl, hvr, hh, hd1, hd2⟩, le_refl _, by omega⟩
        · rw [if_neg hk2]
          dsimp only
          exact hen

theorem eraseT_spec (t : ATree) (k : Nat) (hv : valid t = true) :
    valid (eraseT t k).1 = true ∧ hval (eraseT t k).1 ≤ hval t ∧
      hval t ≤ hval (eraseT t k).1 + 1 :=
  (erase_spec_aux (sizeOf t) t (le_refl _) hv).2 k

theorem valid_real (t : ATree) (hv : valid t = true) :
    hval t = realHeight t ∧ balancedReal t := by
  induction t with
  | nil => exact ⟨rfl, trivial⟩
  | node k h l r ihl ihr =>
    rw [valid_node] at hv
    obtain ⟨hvl, hvr, hh, hd1, hd2⟩ := hv
    obtain ⟨hle, hbl⟩ := ihl hvl
    obtain ⟨hre, hbr⟩ := ihr hvr
    refine ⟨?_, hbl, hbr, by rw [← hle, ← hre]; omega, by rw [← hle, ← hre]; omega⟩
    rw [hval_node, realHeight, hh, hle, hre]

/-- C5: every mutation of the ordered price index — insert of a key,
erase of a present key — leaves the AVL tree height-balanced: afterwards
every node's balance factor (left subtree height minus right subtree
height, measured on true structural heights) lies in [-1, 1]. -/
theorem avl_mutations_balanced (t : ATree) (k : Nat) (hv : valid t = true) :
    balancedReal (insertT t k).1 ∧ (memT t k = true → balancedReal (eraseT t k).1) :=
  ⟨(valid_real _ (insertT_spec t k hv).1).2, fun _ => (valid_real _ (eraseT_spec t k hv).1).2⟩

/-- C5 witness: inserting into and erasing key 3 from the concrete valid
tree `t0` yields height-balanced trees. -/
theorem avl_mutations_balanced_witness :
    valid t0 = true ∧
      (balancedReal (insertT t0 3).1 ∧ (memT t0 3 = true → balancedReal (eraseT t0 3).1)) :=
  ⟨by decide, avl_mutations_balanced t0 3 (by decide)⟩

end AVL

namespace Net

/-- C8: `Notifier::unsubscribe` is claimed to remove the first occurrence
of the client id from the group's subscriber list; the source instead
erases from a local copy of the list (`auto g = groups[group]` binds a
copy, not a reference), so the stored table is left unchanged.  On the
concrete table mapping "g" to ["A"], unsubscribing "A" from "g" leaves
the table intact and differs from the first-occurrence-erased list the
claim requires. -/
theorem unsubscribe_copy_bug :
    unsubscribe [("g", ["A"])] "g" "A" = [("g", ["A"])] ∧
    groupList (unsubscribe [("g", ["A"])] "g" "A") "g" ≠
      eraseFirstOcc (groupList [("g", ["A"])] "g") "A" :=
  ⟨by decide, by decide⟩

/-- C9: the SUB handler on an authenticated session does append the
session's client id to the group's subscriber list (creating the group),
but replies the misspelled line "SUBSCRIEBED\n" rather than "SUBSCRIBED":
shown on the authenticated session `sessU` sending `SUB G1` against an
empty subscription table. -/
theorem sub_misspelled_reply :
    (subProcessor sessU ["SUB", "G1"] "X" []).2 = [("G1", ["X"])] ∧
    (subProcessor sessU ["SUB", "G1"] "X" []).1.outbuf = "SUBSCRIEBED\n" ∧
    "SUBSCRIEBED\n" ≠ "SUBSCRIBED\n" ∧ "SUBSCRIEBED\n" ≠ "SUBSCRIBED" :=
  ⟨by decide, by decide, by decide, by decide⟩

end Net
